import Mathlib

/-!
Verification of the header-recovery and PDF-splitting core of the repository:
`v3/components/header_validator.py` (HeaderValidator) and
`v3/components/pdf_splitter.py` (PdfSplitter), against the configuration
defaults of `v3/utils/config_manager.py` (`ExtractionConfig`).

Strings are modelled as `List Char` (ASCII fragment: the whole pipeline
filters everything down to `A`-`Z`, `0`-`9` and `-` immediately, so the
Python unicode niceties of `.upper()`/`\s` outside ASCII are irrelevant to
every function modelled here and are noted where they are simplified).
Python `int` page numbers are modelled as `Int`; Python `float` thresholds
and ratios are modelled as `ℚ` (every value that actually occurs — difflib
ratios `2*T/len`, `0.85`, `1.0`, `0.5` — is exactly representable, and no
settled claim depends on a float-rounding boundary).
-/

namespace OcrTesting

abbrev Str := List Char

/-- ASCII whitespace, the fragment of Python `str.strip()` / `\s` relevant
after the character whitelist (which admits no whitespace at all). -/
def isWsChar (c : Char) : Bool :=
  c = ' ' || c = '\t' || c = '\n' || c = '\r' || c = Char.ofNat 11 || c = Char.ofNat 12

/-- Python `str.strip()` on the ASCII fragment: drop whitespace at both ends. -/
def stripEnds (l : Str) : Str :=
  ((l.dropWhile isWsChar).reverse.dropWhile isWsChar).reverse

/-- Python `str.upper()` per character (ASCII fragment: `a`-`z` are mapped,
everything else is left alone, matching `Char.toUpper`). -/
def upperStr (l : Str) : Str := l.map Char.toUpper

/-- `re.sub(r"\s+", "", s)`: deleting every maximal whitespace run is the
same as deleting every whitespace character. -/
def removeWs (l : Str) : Str := l.filter (fun c => !isWsChar c)

/-- Python `str.split(sep)` for a single-character separator (the configured
`expected_separator` is the one-character string `"-"`).  `"".split("-") = [""]`,
and consecutive separators produce empty parts, exactly as in Python. -/
def splitSep (sep : Char) : Str → List Str
  | [] => [[]]
  | c :: rest =>
    if c = sep then [] :: splitSep sep rest
    else
      match splitSep sep rest with
      | h :: t => (c :: h) :: t
      | [] => [[c]]

/-- Python `sep.join(parts)` for the single-character separator. -/
def joinSep (sep : Char) : List Str → Str
  | [] => []
  | [p] => p
  | p :: rest => p ++ sep :: joinSep sep rest

/-- `re.sub(f"{sep}+", sep, s)`: collapse every run of separators to one. -/
def collapseSep (sep : Char) : Str → Str
  | [] => []
  | [c] => [c]
  | c :: d :: rest =>
    if c = sep && d = sep then collapseSep sep (d :: rest)
    else c :: collapseSep sep (d :: rest)

/-- Python `str.strip(sep)`: drop the separator at both ends. -/
def stripSep (sep : Char) (l : Str) : Str :=
  ((l.dropWhile (· = sep)).reverse.dropWhile (· = sep)).reverse

/-- `parts[-1] = f(parts[-1])` on a non-empty Python list. -/
def mapLast (f : Str → Str) : List Str → List Str
  | [] => []
  | [p] => [f p]
  | p :: rest => p :: mapLast f rest

/-- Python `parts[-1]` (all call sites guarantee a non-empty list;
`splitSep` never returns `[]`). -/
def lastPart (parts : List Str) : Str := parts.getLastD []

/-- Python `str.isalpha()` on the ASCII fragment that survives normalization. -/
def pyIsAlphaStr (l : Str) : Bool := !l.isEmpty && l.all Char.isAlpha

/-- Python `str.isdigit()` on the ASCII fragment. -/
def pyIsDigitStr (l : Str) : Bool := !l.isEmpty && l.all Char.isDigit

/-- Python `str.isalnum()` on the ASCII fragment. -/
def pyIsAlnumStr (l : Str) : Bool :=
  !l.isEmpty && l.all (fun c => c.isAlpha || c.isDigit)

/-!
## Configuration (`v3/utils/config_manager.py`, `ExtractionConfig`)

Only the fields the verified components read.  The two parsed string
settings (`ambiguous_characters = "S:5,B:8,P:F,O:0,I:1,Z:2"` and
`code_ambiguity_pairs = "O:0,I:L"`) are modelled by their parse results
(`_parse_ambiguous_map` / `_parse_bidirectional_ambiguity_pairs` applied to
the defaults), and the compiled `header_pattern` regex
`^[A-Z](?:-[A-Z0-9]{1,8}){1,2}-[SR][0-9]{7,8}$` by the dedicated matcher
`headerPatternMatch` below.
-/

structure Config where
  expectedSeparator : Char := '-'
  characterWhitelist : Str := "ABCDEFGHIJKLMNOPQRSTUVWXYZ0123456789-".toList
  expectedParts : Nat := 4
  minExpectedParts : Nat := 3
  expectedDigitCount : Nat := 8
  minDigitCount : Nat := 6
  patternPrefixLength : Nat := 1
  patternSerialMin : Nat := 7
  patternSerialMax : Nat := 10
  patternSerialAllowedPrefixes : Str := ['S', 'R']
  serialPrefixRequired : Bool := true
  serialDigitsExact : Nat := 8
  invalidSerialScoreCap : Nat := 89
  serialCloseMatchThreshold : ℚ := mkRat 85 100
  enablePatternCheck : Bool := true
  enableSerialBasedMatching : Bool := true
  headerSimilarityThreshold : ℚ := 1
  minPagesPerSplit : Nat := 1
  enableCodeAmbiguityMonitor : Bool := true
  codeAmbiguityOnlyMixedAlnum : Bool := true
  /-- `_parse_ambiguous_map("S:5,B:8,P:F,O:0,I:1,Z:2")`. -/
  ambiguousMap : List (Char × Char) :=
    [('S', '5'), ('B', '8'), ('P', 'F'), ('O', '0'), ('I', '1'), ('Z', '2')]
  /-- `_parse_bidirectional_ambiguity_pairs("O:0,I:L")`. -/
  codeAmbiguityPairs : List (Char × Char) :=
    [('O', '0'), ('0', 'O'), ('I', 'L'), ('L', 'I')]

def defaultConfig : Config := {}

/-- `dict.get(ch, default)` on a parsed character map (association list,
first binding wins, as in a Python dict built left to right). -/
def mapLookup (m : List (Char × Char)) (c : Char) : Option Char :=
  (m.find? (fun p => p.1 = c)).map (·.2)

/-- `self._ambiguous_map.get(ch, ch)`. -/
def mapGetD (m : List (Char × Char)) (c : Char) : Char :=
  (mapLookup m c).getD c

/-!
## HeaderValidator (`v3/components/header_validator.py`)
-/

/-- `HeaderValidator._normalize_serial`: keep the first character, map the
rest through the ambiguous-character map. -/
def normalizeSerial (cfg : Config) (serial : Str) : Str :=
  match serial with
  | [] => []
  | [c] => [c]
  | prefixChar :: rest => prefixChar :: rest.map (mapGetD cfg.ambiguousMap)

/-- `HeaderValidator._repair_first_block_separator`: for exactly 3 parts
whose first part is length ≥ 4, alphanumeric and starts with a letter,
split the first part into its first character and the remainder. -/
def repairFirstBlockSeparator (cfg : Config) (text : Str) : Str :=
  let parts := splitSep cfg.expectedSeparator text
  match parts with
  | [p0, p1, p2] =>
    if p0.length < 4 then text
    else
      match p0 with
      | [] => text
      | c0 :: restFirst =>
        if !c0.isAlpha then text
        else if !pyIsAlnumStr p0 then text
        else joinSep cfg.expectedSeparator [[c0], restFirst, p1, p2]
  | _ => text

/-- The first stage of `HeaderValidator._normalize`:
`str(text).strip().upper()`, `re.sub(r"\s+", "", s)`, and the whitelist
filter. -/
def sanitizeStage (cfg : Config) (text : Str) : Str :=
  (removeWs (upperStr (stripEnds text))).filter
    (fun ch => (cfg.characterWhitelist ++ [cfg.expectedSeparator]).contains ch)

/-- The second stage of `HeaderValidator._normalize`: collapse duplicated
separators and trim them from both ends. -/
def canonStage (cfg : Config) (s : Str) : Str :=
  stripSep cfg.expectedSeparator (collapseSep cfg.expectedSeparator s)

/-- `HeaderValidator._normalize`, as the composition of its stages. -/
def normalize (cfg : Config) (text : Str) : Str :=
  if text.isEmpty then []
  else
    let s3 := repairFirstBlockSeparator cfg (canonStage cfg (sanitizeStage cfg text))
    joinSep cfg.expectedSeparator (mapLast (normalizeSerial cfg) (splitSep cfg.expectedSeparator s3))

/-- `HeaderValidator._has_only_allowed_chars`. -/
def hasOnlyAllowedChars (cfg : Config) (text : Str) : Bool :=
  text.all (fun ch => (cfg.characterWhitelist ++ [cfg.expectedSeparator]).contains ch)

/-- `HeaderValidator._valid_serial`.  The Python `if exact > 0: … elif …`
ladder is flattened into two guarded early returns with the same semantics
(`serial_digits_exact` is a non-negative count, so "not `> 0`" is `= 0`). -/
def validSerial (cfg : Config) (serial : Str) : Bool :=
  if serial.isEmpty then false
  else
    let serial := upperStr serial
    let startsWithAllowed := cfg.patternSerialAllowedPrefixes.contains (serial.headD ' ')
    if cfg.serialPrefixRequired && !startsWithAllowed then false
    else
      let serialBody := if startsWithAllowed then serial.tail else serial
      if serialBody.isEmpty then false
      else if !pyIsDigitStr serialBody then false
      else
        let digits := serialBody
        if digits.length < cfg.minDigitCount then false
        else if cfg.serialDigitsExact > 0 && digits.length ≠ cfg.serialDigitsExact then false
        else if cfg.serialDigitsExact = 0 && digits.length > cfg.expectedDigitCount + 2 then false
        else if mkRat digits.length (max 1 serial.length) < mkRat 1 2 then false
        else if startsWithAllowed then
          decide (cfg.patternSerialMin ≤ serial.length ∧ serial.length ≤ cfg.patternSerialMax)
        else pyIsAlnumStr serial && decide (cfg.minDigitCount ≤ serial.length)

/-- `HeaderValidator._has_serial_like_digits`. -/
def hasSerialLikeDigits (cfg : Config) (serial : Str) : Bool :=
  decide (cfg.minDigitCount ≤ (serial.filter Char.isDigit).length)

/-- The segment of the regex `[A-Z0-9]{1,8}` (a dash-free block). -/
def matchSegment (l : Str) : Bool :=
  decide (1 ≤ l.length ∧ l.length ≤ 8) && l.all (fun c => c.isUpper || c.isDigit)

/-- The tail of the regex, `[SR][0-9]{7,8}` (a dash-free block). -/
def matchSerialBlock (l : Str) : Bool :=
  match l with
  | [] => false
  | c :: rest =>
    (c = 'S' || c = 'R') && rest.all Char.isDigit &&
      decide (7 ≤ rest.length ∧ rest.length ≤ 8)

/-- The compiled default `header_pattern`
`^[A-Z](?:-[A-Z0-9]{1,8}){1,2}-[SR][0-9]{7,8}$`.  Every character class in
the pattern excludes the dash, so a string matches the anchored regex
exactly when its dash-split is `[prefix, seg, serial]` or
`[prefix, seg, seg, serial]` with each block matching its class. -/
def headerPatternMatch (l : Str) : Bool :=
  match splitSep '-' l with
  | [a, b, c] => a.length = 1 && a.all Char.isUpper && matchSegment b && matchSerialBlock c
  | [a, b, c, d] =>
    a.length = 1 && a.all Char.isUpper && matchSegment b && matchSegment c && matchSerialBlock d
  | _ => false

/-- `HeaderValidator._score_structure`. -/
def scoreStructure (cfg : Config) (parts : List Str) : Nat :=
  if parts.length = cfg.expectedParts then
    match parts with
    | [prefixPart, country, code, serial] =>
      let s1 : Nat :=
        if prefixPart.length = cfg.patternPrefixLength && pyIsAlphaStr prefixPart then 15
        else if prefixPart.length ≤ 2 && pyIsAlnumStr prefixPart then 8
        else 0
      let s2 : Nat :=
        if 1 ≤ country.length && country.length ≤ 6 && pyIsAlnumStr country then 12 else 0
      let s3 : Nat :=
        if 1 ≤ code.length && code.length ≤ 6 && pyIsAlnumStr code then 15 else 0
      let s4 : Nat :=
        if validSerial cfg serial then 35
        else if hasSerialLikeDigits cfg serial then 4
        else 0
      20 + s1 + s2 + s3 + s4
    | _ => 20
  else if parts.length = cfg.minExpectedParts then
    match parts with
    | [prefixPart, middle, serial] =>
      let s1 : Nat :=
        if prefixPart.length = cfg.patternPrefixLength && pyIsAlphaStr prefixPart then 10
        else if prefixPart.length ≤ 2 && pyIsAlnumStr prefixPart then 6
        else 0
      let s2 : Nat :=
        if 1 ≤ middle.length && middle.length ≤ 8 && pyIsAlnumStr middle then 15 else 0
      let s3 : Nat :=
        if validSerial cfg serial then 25
        else if hasSerialLikeDigits cfg serial then 4
        else 0
      10 + s1 + s2 + s3
    | _ => 10
  else 0

/-- `HeaderValidator.validate_and_score`: returns `(score, corrected_text)`. -/
def validateAndScore (cfg : Config) (text : Str) : Nat × Str :=
  let corrected := normalize cfg text
  if corrected.isEmpty then (0, [])
  else
    let base : Nat := 10 + (if hasOnlyAllowedChars cfg corrected then 15 else 0)
    let parts := splitSep cfg.expectedSeparator corrected
    let partsBonus : Nat := if cfg.minExpectedParts ≤ parts.length then 20 else 0
    let serial := lastPart parts
    let serialValid := validSerial cfg serial
    let patternBonus : Nat :=
      if cfg.enablePatternCheck && headerPatternMatch corrected then 60 else 0
    let score := base + partsBonus + patternBonus + scoreStructure cfg parts
    if !serialValid then (min score cfg.invalidSerialScoreCap, corrected)
    else (score, corrected)

/-!
## `difflib.SequenceMatcher` (Python stdlib, used by `headers_match` and
`_serials_close`)

Model of `SequenceMatcher(None, a, b).ratio()`: the sum of the sizes of the
matching blocks, doubled and divided by the total length.  The "autojunk"
heuristic (only active when `len(b) ≥ 200`: characters occupying more than
`len(b)//100 + 1` positions of `b` are excluded from block search and only
consumed by the junk-extension sweeps) is included.
-/

/-- Characters of `b` judged "popular" by difflib's autojunk heuristic. -/
def smIsJunk (b : Str) (c : Char) : Bool :=
  200 ≤ b.length && b.length / 100 + 1 < b.count c

/-- `b2j[c]`: ascending positions of `c` in `b`, with junk excluded. -/
def smB2j (b : Str) (c : Char) : List Nat :=
  if smIsJunk b c then []
  else (b.enum.filter (fun p => p.2 = c)).map (·.1)

/-- `j2len.get(j, 0)` on the association-list model of the Python dict. -/
def smLookup (m : List (Nat × Nat)) (j : Nat) : Nat :=
  (((m.find? (fun p => p.1 = j)).map (·.2)).getD 0)

/-- The inner `for j in b2j.get(a[i], [])` loop of `find_longest_match`:
`continue` below `blo`, `break` at `bhi`, extend the diagonal run length and
track the first strictly-best block. -/
def smInner (blo bhi i : Nat) :
    List Nat → List (Nat × Nat) → List (Nat × Nat) → Nat × Nat × Nat →
    List (Nat × Nat) × (Nat × Nat × Nat)
  | [], _, newm, best => (newm, best)
  | j :: js, m, newm, (besti, bestj, bestsize) =>
    if j < blo then smInner blo bhi i js m newm (besti, bestj, bestsize)
    else if bhi ≤ j then (newm, (besti, bestj, bestsize))
    else
      let k := smLookup m (j - 1) + 1
      let best' :=
        if bestsize < k then (i + 1 - k, j + 1 - k, k) else (besti, bestj, bestsize)
      smInner blo bhi i js m ((j, k) :: newm) best'

/-- The outer `for i in range(alo, ahi)` loop of `find_longest_match`. -/
def smOuter (a b : Str) (blo bhi : Nat) :
    List Nat → List (Nat × Nat) → Nat × Nat × Nat → Nat × Nat × Nat
  | [], _, best => best
  | i :: is, m, best =>
    let (newm, best') := smInner blo bhi i (smB2j b (a.getD i ' ')) m [] best
    smOuter a b blo bhi is newm best'

/-- The two downward `while` sweeps of `find_longest_match` (non-junk when
`junk = false`, the junk sweep when `junk = true`).  `fuel` is structural
recursion budget only: each step decrements `besti`, and the loop guard
needs `alo < besti`, so a starting fuel of `besti` can never run out before
the guard fails. -/
def smExtendLower (a b : Str) (junk : Bool) (alo blo : Nat) :
    Nat → Nat × Nat × Nat → Nat × Nat × Nat
  | 0, st => st
  | fuel + 1, (besti, bestj, bestsize) =>
    if alo < besti ∧ blo < bestj ∧ smIsJunk b (b.getD (bestj - 1) ' ') = junk ∧
        a.getD (besti - 1) ' ' = b.getD (bestj - 1) ' ' then
      smExtendLower a b junk alo blo fuel (besti - 1, bestj - 1, bestsize + 1)
    else (besti, bestj, bestsize)

/-- The two upward `while` sweeps of `find_longest_match`; `fuel` as in
`smExtendLower` (each step grows `bestsize`, bounded by `ahi`). -/
def smExtendUpper (a b : Str) (junk : Bool) (ahi bhi : Nat) :
    Nat → Nat × Nat × Nat → Nat × Nat × Nat
  | 0, st => st
  | fuel + 1, (besti, bestj, bestsize) =>
    if besti + bestsize < ahi ∧ bestj + bestsize < bhi ∧
        smIsJunk b (b.getD (bestj + bestsize) ' ') = junk ∧
        a.getD (besti + bestsize) ' ' = b.getD (bestj + bestsize) ' ' then
      smExtendUpper a b junk ahi bhi fuel (besti, bestj, bestsize + 1)
    else (besti, bestj, bestsize)

/-- `SequenceMatcher.find_longest_match` on the slice
`a[alo:ahi]` / `b[blo:bhi]`. -/
def smFindLongestMatch (a b : Str) (alo ahi blo bhi : Nat) : Nat × Nat × Nat :=
  let st := smOuter a b blo bhi (List.range' alo (ahi - alo)) [] (alo, blo, 0)
  let st := smExtendLower a b false alo blo st.1 st
  let st := smExtendUpper a b false ahi bhi ahi st
  let st := smExtendLower a b true alo blo st.1 st
  smExtendUpper a b true ahi bhi ahi st

/-- Total size of all matching blocks (`get_matching_blocks` recursion:
split at the longest match and recurse on both sides).  `fuel` only bounds
the recursion depth: every recursive call strictly shrinks `ahi - alo`
(the longest match is non-empty inside the slice), so the initial
`a.length + b.length + 1` never runs out. -/
def smTotal (a b : Str) : Nat → Nat → Nat → Nat → Nat → Nat
  | 0, _, _, _, _ => 0
  | fuel + 1, alo, ahi, blo, bhi =>
    let (i, j, k) := smFindLongestMatch a b alo ahi blo bhi
    if k = 0 then 0
    else smTotal a b fuel alo i blo j + k + smTotal a b fuel (i + k) ahi (j + k) bhi

/-- `SequenceMatcher(None, a, b).ratio()` (with difflib's convention that
two empty sequences have ratio 1).  `2*T / (len(a)+len(b))` is written with
`mkRat`, which builds exactly that rational. -/
def smRatio (a b : Str) : ℚ :=
  if a.length + b.length = 0 then 1
  else mkRat (2 * smTotal a b (a.length + b.length + 1) 0 a.length 0 b.length)
    (a.length + b.length)

/-- `HeaderValidator._serials_close`. -/
def serialsClose (cfg : Config) (serialA serialB : Str) : Bool :=
  if serialA.isEmpty || serialB.isEmpty then false
  else
    let digitsA := serialA.filter Char.isDigit
    let digitsB := serialB.filter Char.isDigit
    if digitsA.isEmpty || digitsB.isEmpty then false
    else decide (cfg.serialCloseMatchThreshold ≤ smRatio digitsA digitsB)

/-- `HeaderValidator.headers_match`.  The Python `threshold` float is
modelled as `ℚ`. -/
def headersMatch (cfg : Config) (header1 header2 : Str) (threshold : ℚ) : Bool :=
  let a := (validateAndScore cfg header1).2
  let b := (validateAndScore cfg header2).2
  if a.isEmpty || b.isEmpty then false
  else if a = b then true
  else
    let partsA := splitSep cfg.expectedSeparator a
    let partsB := splitSep cfg.expectedSeparator b
    if cfg.enableSerialBasedMatching && 3 ≤ partsA.length && 3 ≤ partsB.length &&
        partsA.dropLast = partsB.dropLast then
      let serialA := lastPart partsA
      let serialB := lastPart partsB
      let strictA := validSerial cfg serialA
      let strictB := validSerial cfg serialB
      if strictA && strictB then serialA = serialB
      else if strictA ≠ strictB && serialsClose cfg serialA serialB then true
      else if !strictA && !strictB then serialA = serialB
      else false
    else
      let similarity := smRatio a b
      let normThreshold := if 1 < threshold then threshold / 100 else threshold
      decide (normThreshold ≤ similarity)

/-- `HeaderValidator.is_strict_header`. -/
def isStrictHeader (cfg : Config) (text : Str) : Bool :=
  let corrected := (validateAndScore cfg text).2
  if corrected.isEmpty then false
  else
    let parts := splitSep cfg.expectedSeparator corrected
    if parts.length < cfg.minExpectedParts then false
    else validSerial cfg (lastPart parts)

/-!
## Code-ambiguity inspection and support-based resolution
(`header_validator.py`, observe-only O/0 monitor)
-/

/-- `HeaderValidator._resolve_code_segment_index`. -/
def resolveCodeSegmentIndex (cfg : Config) (parts : List Str) : Option Nat :=
  if parts.length = cfg.expectedParts then some 2
  else if parts.length = cfg.minExpectedParts then some 1
  else none

/-- The `for idx, ch in enumerate(text)` loop of
`_build_single_char_ambiguity_variants`: `pre` is `text[:idx]`, the second
argument `text[idx:]`, and `seen` the dedup set (insertion-ordered; the
produced list only needs membership).  A variant is
`text[:idx] + mapped + text[idx+1:]`. -/
def buildVariantsAux (pairs : List (Char × Char)) : Str → Str → List Str → List Str
  | _, [], _ => []
  | pre, c :: cs, seen =>
    match mapLookup pairs c with
    | none => buildVariantsAux pairs (pre ++ [c]) cs seen
    | some m =>
      let variant := pre ++ m :: cs
      if variant = pre ++ c :: cs then buildVariantsAux pairs (pre ++ [c]) cs seen
      else if seen.contains variant then buildVariantsAux pairs (pre ++ [c]) cs seen
      else variant :: buildVariantsAux pairs (pre ++ [c]) cs (seen ++ [variant])

/-- `HeaderValidator._build_single_char_ambiguity_variants`. -/
def buildSingleCharAmbiguityVariants (text : Str) (pairs : List (Char × Char)) : List Str :=
  buildVariantsAux pairs [] text []

/-- The observe-only result dict of `inspect_code_ambiguity`. -/
structure InspectResult where
  enabled : Bool
  isAmbiguous : Bool
  normalizedHeader : Str
  codeSegment : Str
  alternativeCodes : List Str
  alternativeHeaders : List Str
  note : Str
  deriving DecidableEq

/-- `HeaderValidator.inspect_code_ambiguity`. -/
def inspectCodeAmbiguity (cfg : Config) (text : Str) : InspectResult :=
  let base : InspectResult :=
    { enabled := cfg.enableCodeAmbiguityMonitor, isAmbiguous := false,
      normalizedHeader := [], codeSegment := [],
      alternativeCodes := [], alternativeHeaders := [], note := [] }
  if !cfg.enableCodeAmbiguityMonitor then { base with note := "monitor_disabled".toList }
  else
    let normalized := (validateAndScore cfg text).2
    if normalized.isEmpty then { base with note := "empty_normalized".toList }
    else
      let parts := splitSep cfg.expectedSeparator normalized
      match resolveCodeSegmentIndex cfg parts with
      | none => { base with normalizedHeader := normalized, note := "unsupported_format".toList }
      | some codeIdx =>
        let code := parts.getD codeIdx []
        let r1 := { base with normalizedHeader := normalized, codeSegment := code }
        if code.isEmpty then { r1 with note := "empty_code".toList }
        else if cfg.codeAmbiguityOnlyMixedAlnum &&
            !(code.any Char.isAlpha && code.any Char.isDigit) then
          { r1 with note := "not_mixed_alnum".toList }
        else if cfg.codeAmbiguityPairs.isEmpty then { r1 with note := "no_pairs".toList }
        else
          let altCodes := buildSingleCharAmbiguityVariants code cfg.codeAmbiguityPairs
          if altCodes.isEmpty then { r1 with note := "no_variant".toList }
          else
            { r1 with
              isAmbiguous := true,
              alternativeCodes := altCodes,
              alternativeHeaders := altCodes.map (fun altCode =>
                joinSep cfg.expectedSeparator (parts.set codeIdx altCode)),
              note := "code_o0_ambiguous".toList }

/-- The metadata dict of `resolve_code_ambiguity_by_support`. -/
structure ResolveMeta where
  applied : Bool
  baseHeader : Str
  resolvedHeader : Str
  supports : List (Str × Nat)
  minSupport : Nat
  reason : Str
  deriving DecidableEq

/-- `HeaderValidator.resolve_code_ambiguity_by_support`.  The support dict
`{alt: count}` is modelled as an association list in alternative order (the
alternative headers are pairwise distinct, so the Python dict comprehension
drops nothing); `max(support_map.items(), key=item[1])` keeps the first
item whose count no later item strictly exceeds. -/
def resolveCodeAmbiguityBySupport (cfg : Config) (baseHeader : Str)
    (candidateHeaders : List Str) (minSupport : Int) : Str × ResolveMeta :=
  let info := inspectCodeAmbiguity cfg baseHeader
  let required : Nat := (max 1 minSupport).toNat
  let base : ResolveMeta :=
    { applied := false, baseHeader := baseHeader, resolvedHeader := baseHeader,
      supports := [], minSupport := required, reason := "no_ambiguity".toList }
  if !info.isAmbiguous then (baseHeader, base)
  else
    let normalizedCandidates := candidateHeaders.filterMap (fun c =>
      if c.isEmpty then none
      else
        let n := (validateAndScore cfg c).2
        some (if n.isEmpty then c else n))
    let alternatives := info.alternativeHeaders.filter (fun x => !x.isEmpty)
    if alternatives.isEmpty then
      (baseHeader, { base with reason := "no_alternative_headers".toList })
    else
      let supportMap := alternatives.map (fun alt => (alt, normalizedCandidates.count alt))
      let best : Str × Nat :=
        match supportMap with
        | [] => (baseHeader, 0)
        | x :: xs => xs.foldl (fun acc (y : Str × Nat) => if acc.2 < y.2 then y else acc) x
      let meta := { base with supports := supportMap }
      if required ≤ best.2 then
        (best.1,
          { meta with
            applied := true
            resolvedHeader := best.1
            reason := ("support=" ++ Nat.repr best.2).toList })
      else
        (baseHeader,
          { meta with
            reason := ("insufficient_support=" ++ Nat.repr best.2).toList })

/-!
## PdfSplitter (`v3/components/pdf_splitter.py`)

Page numbers are Python `int`s, modelled as `Int`.  A document group is
`(start_page, end_page, header_text)`.
-/

abbrev Group := Int × Int × Str

/-- `re.findall(r'\d+', s)`: the maximal runs of digits, left to right,
as a single scan carrying the (reversed) run in progress. -/
def digitRunsAux : Str → Str → List Str
  | cur, [] => if cur.isEmpty then [] else [cur.reverse]
  | cur, c :: rest =>
    if c.isDigit then digitRunsAux (c :: cur) rest
    else (if cur.isEmpty then [] else [cur.reverse]) ++ digitRunsAux [] rest

def digitRuns (l : Str) : List Str := digitRunsAux [] l

/-- `max(runs, key=len)` (first run of maximal length) with `""` for an
empty list, as in `max(digits1, key=len) if digits1 else ""`. -/
def maxByLen (ds : List Str) : Str :=
  match ds with
  | [] => []
  | d :: rest => rest.foldl (fun best x => if best.length < x.length then x else best) d

/-- One row step of the `_count_char_differences` Levenshtein matrix:
given `prevRow = dp[i-1][j-1..]` (head is the diagonal) and `left = dp[i][j-1]`,
produce `dp[i][j..]`. -/
def levNextRowAux (c : Char) : Str → List Nat → Nat → List Nat
  | [], _, _ => []
  | _ :: _, [], _ => []
  | b :: bs, pDiag :: pRest, left =>
    let above := pRest.headD 0
    let cur := if c = b then pDiag else 1 + min (min above left) pDiag
    cur :: levNextRowAux c bs pRest cur

/-- The row-by-row fill of the `_count_char_differences` matrix. -/
def levRows (s2 : Str) : Str → List Nat → Nat → List Nat
  | [], row, _ => row
  | c :: cs, row, i => levRows s2 cs (i :: levNextRowAux c s2 row i) (i + 1)

/-- `PdfSplitter._count_char_differences` (Levenshtein distance via the
standard dynamic-programming matrix; the full matrix of the source is
computed row by row, which fills identical cells). -/
def countCharDifferences (s1 s2 : Str) : Nat :=
  (levRows s2 s1 (List.range (s2.length + 1)) 1).getLastD 0

/-- `PdfSplitter._strings_similar`.  `1 - diff/max_len` is written as the
equal rational `(max_len - diff)/max_len` with `mkRat` over `Int`. -/
def stringsSimilar (s1 s2 : Str) (threshold : ℚ) : Bool :=
  if s1.isEmpty || s2.isEmpty then false
  else
    let maxLen := max s1.length s2.length
    if maxLen = 0 then true
    else decide (threshold ≤ mkRat ((maxLen : Int) - (countCharDifferences s1 s2 : Int)) maxLen)

/-- `PdfSplitter._is_serial_tail_digit_variant`. -/
def isSerialTailDigitVariant (cfg : Config) (header1 header2 : Str) : Bool :=
  if header1.isEmpty || header2.isEmpty then false
  else
    let parts1 := splitSep cfg.expectedSeparator header1
    let parts2 := splitSep cfg.expectedSeparator header2
    if parts1.length < 3 || parts2.length < 3 then false
    else if parts1.dropLast ≠ parts2.dropLast then false
    else
      let serial1 := lastPart parts1
      let serial2 := lastPart parts2
      if serial1.isEmpty || serial2.isEmpty then false
      else if serial1.headD ' ' ≠ serial2.headD ' ' then false
      else
        let digits1 := serial1.tail.filter Char.isDigit
        let digits2 := serial2.tail.filter Char.isDigit
        if digits1.isEmpty || digits2.isEmpty then false
        else
          let longDigits := if digits2.length ≤ digits1.length then digits1 else digits2
          let shortDigits := if digits2.length ≤ digits1.length then digits2 else digits1
          if longDigits.length - shortDigits.length ≠ 1 then false
          else shortDigits.isPrefixOf longDigits

/-- `PdfSplitter._is_likely_ocr_error`.  The inner "serial numbers" block
only ever returns `True`, so it is modelled as one boolean `digitHit`
guarding the structural fallback. -/
def isLikelyOcrError (cfg : Config) (header1 header2 : Str) : Bool :=
  let norm1 := (validateAndScore cfg header1).2
  let norm2 := (validateAndScore cfg header2).2
  let strict1 := isStrictHeader cfg (if norm1.isEmpty then header1 else norm1)
  let strict2 := isStrictHeader cfg (if norm2.isEmpty then header2 else norm2)
  if strict1 && strict2 && norm1 ≠ norm2 then
    isSerialTailDigitVariant cfg norm1 norm2
  else if 5 < ((header1.length : Int) - (header2.length : Int)).natAbs then false
  else
    let longest1 := maxByLen (digitRuns header1)
    let longest2 := maxByLen (digitRuns header2)
    let serialDiff := countCharDifferences longest1 longest2
    let digitHit :=
      !longest1.isEmpty && !longest2.isEmpty &&
        7 ≤ longest1.length && 7 ≤ longest2.length &&
        (longest1 = longest2 ||
          ((decide (longest1 <:+: longest2) || decide (longest2 <:+: longest1)) &&
            ((longest1.length : Int) - (longest2.length : Int)).natAbs ≤ 2) ||
          (serialDiff ≤ 2 ∧
            (serialDiff : ℚ) < mkRat (max longest1.length longest2.length * 25) 100))
    if digitHit then true
    else
      let parts1 := splitSep cfg.expectedSeparator header1
      let parts2 := splitSep cfg.expectedSeparator header2
      if 1 < ((parts1.length : Int) - (parts2.length : Int)).natAbs then false
      else if 3 ≤ parts1.length && 3 ≤ parts2.length then
        if parts1.getD 0 [] ≠ parts2.getD 0 [] then false
        else if parts1.getD 1 [] ≠ parts2.getD 1 [] &&
            !stringsSimilar (parts1.getD 1 []) (parts2.getD 1 []) (7 / 10) then false
        else if !stringsSimilar (parts1.getD 2 []) (parts2.getD 2 []) (1 / 2) then false
        else
          let serial1 := if 3 < parts1.length then lastPart parts1 else []
          let serial2 := if 3 < parts2.length then lastPart parts2 else []
          let serialDigits1 := serial1.filter Char.isDigit
          let serialDigits2 := serial2.filter Char.isDigit
          if serialDigits1.isEmpty || serialDigits2.isEmpty then false
          else
            let maxLen := max serialDigits1.length serialDigits2.length
            if maxLen = 0 then false
            else
              let diffCount := countCharDifferences serialDigits1 serialDigits2
              diffCount ≤ 3 && decide ((diffCount : ℚ) < mkRat (maxLen * 3) 10)
      else false

/-- `PdfSplitter._neighbor_rank` (the `current_header` parameter is unused
in the source body as well). -/
def neighborRank (cfg : Config) (_currentHeader : Str) (neighborGroup : Option Group) : Int :=
  match neighborGroup with
  | none => -1
  | some (start, stop, header) =>
    let pages := stop - start + 1
    let scored := validateAndScore cfg header
    let strictBonus : Int :=
      if isStrictHeader cfg (if scored.2.isEmpty then header else scored.2) then 20 else 0
    (scored.1 : Int) + strictBonus + min 10 pages

inductive MergeSide where
  | prev
  | next
  deriving DecidableEq

/-- `PdfSplitter._select_merge_side`. -/
def selectMergeSide (cfg : Config) (currentHeader : Str)
    (prevGroup nextGroup : Option Group) (prevMatch nextMatch : Bool) : Option MergeSide :=
  if prevMatch && !nextMatch then some MergeSide.prev
  else if nextMatch && !prevMatch then some MergeSide.next
  else if !prevMatch && !nextMatch then none
  else
    let prevRank := if prevGroup.isSome then neighborRank cfg currentHeader prevGroup else -1
    let nextRank := if nextGroup.isSome then neighborRank cfg currentHeader nextGroup else -1
    if prevRank < nextRank then some MergeSide.next else some MergeSide.prev

/-- The `while i < len(working)` loop of `_apply_context_correction`:
`corrected` is the processed prefix (whose last element a prev-merge
rewrites) and the last argument is the remaining `working` suffix (whose
head a next-merge absorbs the current single page into).  Every iteration
shortens the suffix by exactly one (a next-merge replaces its head and
drops the current page), so the structural `fuel`, started at the full
group-list length, never runs out; the fuel-0 arm is unreachable for the
actual call. -/
def contextCorrectionLoop (cfg : Config) : Nat → List Group → List Group → List Group
  | _, corrected, [] => corrected
  | 0, corrected, working => corrected ++ working
  | fuel + 1, corrected, (currentStart, currentEnd, currentHeader) :: rest =>
    if currentEnd - currentStart + 1 = 1 then
      let prevGroup := corrected.getLast?
      let nextGroup := rest.head?
      let prevMatch :=
        match prevGroup with
        | none => false
        | some (_, _, ph) => isLikelyOcrError cfg currentHeader ph
      let nextMatch :=
        match nextGroup with
        | none => false
        | some (_, _, nh) => isLikelyOcrError cfg currentHeader nh
      if prevMatch || nextMatch then
        match selectMergeSide cfg currentHeader prevGroup nextGroup prevMatch nextMatch with
        | some MergeSide.prev =>
          match corrected.getLast? with
          | some (ps, _, ph) =>
            contextCorrectionLoop cfg fuel (corrected.dropLast ++ [(ps, currentEnd, ph)]) rest
          | none =>
            contextCorrectionLoop cfg fuel
              (corrected ++ [(currentStart, currentEnd, currentHeader)]) rest
        | some MergeSide.next =>
          match rest with
          | (_, ne, nh) :: rest2 =>
            contextCorrectionLoop cfg fuel corrected ((currentStart, ne, nh) :: rest2)
          | [] =>
            contextCorrectionLoop cfg fuel
              (corrected ++ [(currentStart, currentEnd, currentHeader)]) []
        | none =>
          contextCorrectionLoop cfg fuel
            (corrected ++ [(currentStart, currentEnd, currentHeader)]) rest
      else
        contextCorrectionLoop cfg fuel
          (corrected ++ [(currentStart, currentEnd, currentHeader)]) rest
    else
      contextCorrectionLoop cfg fuel
        (corrected ++ [(currentStart, currentEnd, currentHeader)]) rest

/-- `PdfSplitter._merge_adjacent_groups`: the Python loop mutates only
`merged[-1]`, carried here as the first argument. -/
def mergeAdjacentAux : Group → List Group → List Group
  | lastGroup, [] => [lastGroup]
  | (ls, le, lh), (s, e, h) :: rest =>
    if s = le + 1 && h = lh then mergeAdjacentAux (ls, e, lh) rest
    else (ls, le, lh) :: mergeAdjacentAux (s, e, h) rest

def mergeAdjacentGroups : List Group → List Group
  | [] => []
  | g :: rest => mergeAdjacentAux g rest

/-- `PdfSplitter._apply_context_correction`. -/
def applyContextCorrection (cfg : Config) (groups : List Group) : List Group :=
  if groups.length ≤ 1 then groups
  else mergeAdjacentGroups (contextCorrectionLoop cfg groups.length [] groups)

/-- The per-candidate statistics of `_select_best_header`
(`{"count", "best_score", "strict_valid"}`; `strict_valid` is the 0/1 flag
of the source). -/
structure CandStats where
  count : Nat
  bestScore : Nat
  strictValid : Nat
  deriving DecidableEq

/-- One `for header in headers` step of `_select_best_header` on the
insertion-ordered dict (association list).  A fresh key gets
`{count: 0, best_score: score, strict_valid: flag}` and is then updated by
the unconditional `count += 1` / `best_score = max(...)` /
`if strict: strict_valid = 1`, which collapses to the values below. -/
def insertCandidate : List (Str × CandStats) → Str → Nat → Bool → List (Str × CandStats)
  | [], normalized, score, strictValid =>
    [(normalized, { count := 1, bestScore := score, strictValid := if strictValid then 1 else 0 })]
  | (k, st) :: rest, normalized, score, strictValid =>
    if k = normalized then
      (k, { count := st.count + 1, bestScore := max st.bestScore score,
            strictValid := if strictValid then 1 else st.strictValid }) :: rest
    else (k, st) :: insertCandidate rest normalized score strictValid

/-- Python string `<`: lexicographic on code points. -/
def strLt : Str → Str → Bool
  | [], [] => false
  | [], _ :: _ => true
  | _ :: _, [] => false
  | a :: as, b :: bs => if a = b then strLt as bs else decide (a < b)

/-- The sort key of `_select_best_header`:
`(count, strict_valid, best_score, len(text), text)`, compared as a Python
tuple (lexicographically). -/
def candKeyLt (x y : Str × CandStats) : Bool :=
  if x.2.count ≠ y.2.count then x.2.count < y.2.count
  else if x.2.strictValid ≠ y.2.strictValid then x.2.strictValid < y.2.strictValid
  else if x.2.bestScore ≠ y.2.bestScore then x.2.bestScore < y.2.bestScore
  else if x.1.length ≠ y.1.length then x.1.length < y.1.length
  else strLt x.1 y.1

/-- `sorted(candidates.items(), key=..., reverse=True)`: a stable
descending sort (any stable sort produces the list Python's timsort does:
keys descending, equal keys in insertion order). -/
def insertDesc (x : Str × CandStats) : List (Str × CandStats) → List (Str × CandStats)
  | [] => [x]
  | y :: ys => if candKeyLt x y then y :: insertDesc x ys else x :: y :: ys

def sortCandidatesDesc : List (Str × CandStats) → List (Str × CandStats)
  | [] => []
  | x :: xs => insertDesc x (sortCandidatesDesc xs)

/-- `PdfSplitter._select_best_header`. -/
def selectBestHeader (cfg : Config) (headers : List Str) : Str :=
  match headers with
  | [] => []
  | [h] =>
    let scored := validateAndScore cfg h
    if 0 < scored.1 && !scored.2.isEmpty then scored.2 else h
  | _ =>
    let candidates := headers.foldl (fun acc header =>
      let scored := validateAndScore cfg header
      let normalized := if scored.2.isEmpty then header else scored.2
      insertCandidate acc normalized scored.1 (isStrictHeader cfg normalized)) []
    match sortCandidatesDesc candidates with
    | (best, _) :: _ => best
    | [] => []

/-- The `for i in range(1, len(page_headers))` loop of
`_detect_header_groups`: carries `current_start`, `current_header`,
`current_headers` and the previous record's page number (Python's
`page_headers[i-1][0]`). -/
def detectLoop (cfg : Config) (threshold : ℚ) :
    Int → Str → List Str → Int → List (Int × Str) → List Group
  | currentStart, _, currentHeaders, prevPage, [] =>
    [(currentStart, prevPage, selectBestHeader cfg currentHeaders)]
  | currentStart, currentHeader, currentHeaders, prevPage, (pageNum, header) :: rest =>
    if headersMatch cfg header currentHeader threshold then
      detectLoop cfg threshold currentStart currentHeader (currentHeaders ++ [header]) pageNum rest
    else
      (currentStart, prevPage, selectBestHeader cfg currentHeaders) ::
        detectLoop cfg threshold pageNum header [header] pageNum rest

/-- `PdfSplitter._detect_header_groups`. -/
def detectHeaderGroups (cfg : Config) (pageHeaders : List (Int × Str)) : List Group :=
  match pageHeaders with
  | [] => []
  | (p0, h0) :: rest =>
    let groups := detectLoop cfg cfg.headerSimilarityThreshold p0 h0 [h0] p0 rest
    let groups := applyContextCorrection cfg groups
    if 0 < cfg.minPagesPerSplit then
      groups.filter (fun g => (cfg.minPagesPerSplit : Int) ≤ g.2.1 - g.1 + 1)
    else groups

/-- The C4 partition invariant: the group list tiles the page interval
`[lo, hi]` exactly — each group starts where the previous one ended plus
one, is non-empty (`start ≤ end`), and the final group ends at `hi` (the
empty list tiles the empty interval, `lo = hi + 1`).  Contiguity,
non-overlap and exactly-once coverage are together equivalent to this
single predicate. -/
def coversB : Int → Int → List Group → Bool
  | lo, hi, [] => decide (lo = hi + 1)
  | lo, hi, (s, e, _) :: rest => (decide (s = lo) && decide (s ≤ e)) && coversB (e + 1) hi rest

/-- Page-header records carrying consecutive page indices starting at `p`. -/
def consecutiveFromB : Int → List (Int × Str) → Bool
  | _, [] => true
  | p, (q, _) :: rest => decide (q = p) && consecutiveFromB (p + 1) rest

/-!
## Lemmas about the string primitives
-/

theorem splitSep_ne_nil (sep : Char) (l : Str) : splitSep sep l ≠ [] := by
  induction l with
  | nil => simp [splitSep]
  | cons c rest ih =>
    simp only [splitSep]
    split
    · simp
    · cases hsp : splitSep sep rest with
      | nil => exact absurd hsp ih
      | cons h t => simp [hsp]

theorem mem_splitSep_not_sep (sep : Char) (l : Str) :
    ∀ p ∈ splitSep sep l, sep ∉ p := by
  induction l with
  | nil => intro p hp; simp [splitSep] at hp; simp [hp]
  | cons c rest ih =>
    intro p hp
    simp only [splitSep] at hp
    by_cases hc : c = sep
    · simp [hc] at hp
      rcases hp with hp | hp
      · simp [hp]
      · exact ih p hp
    · simp [hc] at hp
      cases hsp : splitSep sep rest with
      | nil => exact absurd hsp (splitSep_ne_nil sep rest)
      | cons h t =>
        rw [hsp] at hp
        rcases List.mem_cons.mp hp with hp | hp
        · subst hp
          intro hmem
          rcases List.mem_cons.mp hmem with h1 | h1
          · exact hc h1.symm
          · exact ih h (hsp ▸ List.mem_cons_self h t) h1
        · exact ih p (hsp ▸ List.mem_cons_of_mem h hp)

theorem mem_of_mem_splitSep (sep : Char) (l : Str) :
    ∀ p ∈ splitSep sep l, ∀ c ∈ p, c ∈ l := by
  induction l with
  | nil => intro p hp; simp [splitSep] at hp; simp [hp]
  | cons a rest ih =>
    intro p hp c hc
    simp only [splitSep] at hp
    by_cases ha : a = sep
    · simp [ha] at hp
      rcases hp with hp | hp
      · simp [hp] at hc
      · exact List.mem_cons_of_mem a (ih p hp c hc)
    · simp [ha] at hp
      cases hsp : splitSep sep rest with
      | nil => exact absurd hsp (splitSep_ne_nil sep rest)
      | cons h t =>
        rw [hsp] at hp
        rcases List.mem_cons.mp hp with hp | hp
        · subst hp
          rcases List.mem_cons.mp hc with h1 | h1
          · exact h1 ▸ List.mem_cons_self a rest
          · exact List.mem_cons_of_mem a (ih h (hsp ▸ List.mem_cons_self h t) c h1)
        · exact List.mem_cons_of_mem a (ih p (hsp ▸ List.mem_cons_of_mem h hp) c hc)

theorem splitSep_of_not_mem (sep : Char) (l : Str) (h : sep ∉ l) :
    splitSep sep l = [l] := by
  induction l with
  | nil => simp [splitSep]
  | cons c rest ih =>
    have hc : c ≠ sep := fun hc => h (hc ▸ List.mem_cons_self c rest)
    have hrest : sep ∉ rest := fun hr => h (List.mem_cons_of_mem c hr)
    simp [splitSep, hc, ih hrest]

theorem splitSep_append_sep (sep : Char) (p t : Str) (h : sep ∉ p) :
    splitSep sep (p ++ sep :: t) = p :: splitSep sep t := by
  induction p with
  | nil => simp [splitSep]
  | cons c rest ih =>
    have hc : c ≠ sep := fun hc => h (hc ▸ List.mem_cons_self c rest)
    have hrest : sep ∉ rest := fun hr => h (List.mem_cons_of_mem c hr)
    simp [splitSep, hc, ih hrest]

theorem splitSep_joinSep (sep : Char) (ps : List Str) (hne : ps ≠ [])
    (h : ∀ p ∈ ps, sep ∉ p) : splitSep sep (joinSep sep ps) = ps := by
  induction ps with
  | nil => exact absurd rfl hne
  | cons p rest ih =>
    cases rest with
    | nil => simpa [joinSep] using splitSep_of_not_mem sep p (h p (List.mem_cons_self p []))
    | cons q rest2 =>
      have hp : sep ∉ p := h p (List.mem_cons_self p _)
      have hrest : ∀ r ∈ q :: rest2, sep ∉ r := fun r hr => h r (List.mem_cons_of_mem p hr)
      simp only [joinSep]
      rw [splitSep_append_sep sep p _ hp, ih (by simp) hrest]

theorem mem_joinSep (sep : Char) (ps : List Str) (c : Char) (h : c ∈ joinSep sep ps) :
    c = sep ∨ ∃ p ∈ ps, c ∈ p := by
  induction ps with
  | nil => simp [joinSep] at h
  | cons p rest ih =>
    cases rest with
    | nil =>
      simp only [joinSep] at h
      exact Or.inr ⟨p, List.mem_cons_self p [], h⟩
    | cons q rest2 =>
      simp only [joinSep, List.mem_append, List.mem_cons] at h
      rcases h with h | h | h
      · exact Or.inr ⟨p, List.mem_cons_self p _, h⟩
      · exact Or.inl h
      · rcases ih h with h1 | ⟨r, hr, hcr⟩
        · exact Or.inl h1
        · exact Or.inr ⟨r, List.mem_cons_of_mem p hr, hcr⟩

theorem joinSep_ne_nil (sep : Char) (p : Str) (ps : List Str) (hp : p ≠ []) :
    joinSep sep (p :: ps) ≠ [] := by
  cases ps with
  | nil => simpa [joinSep]
  | cons q rest => cases p with
    | nil => exact absurd rfl hp
    | cons a t => simp [joinSep]

theorem mapLast_length (f : Str → Str) (l : List Str) : (mapLast f l).length = l.length := by
  induction l with
  | nil => rfl
  | cons p rest ih =>
    cases rest with
    | nil => rfl
    | cons q rest2 => simpa [mapLast] using ih

theorem mem_mapLast (f : Str → Str) (l : List Str) (p : Str) (h : p ∈ mapLast f l) :
    p ∈ l ∨ ∃ q ∈ l, p = f q := by
  induction l with
  | nil => simp [mapLast] at h
  | cons a rest ih =>
    cases rest with
    | nil =>
      simp only [mapLast, List.mem_singleton] at h
      exact Or.inr ⟨a, List.mem_cons_self a [], h⟩
    | cons b rest2 =>
      rcases List.mem_cons.mp h with h1 | h1
      · exact Or.inl (h1 ▸ List.mem_cons_self a _)
      · rcases ih h1 with h2 | ⟨q, hq, hpq⟩
        · exact Or.inl (List.mem_cons_of_mem a h2)
        · exact Or.inr ⟨q, List.mem_cons_of_mem a hq, hpq⟩

theorem mapLast_mapLast (f g : Str → Str) (l : List Str) :
    mapLast f (mapLast g l) = mapLast (fun p => f (g p)) l := by
  induction l with
  | nil => rfl
  | cons a rest ih =>
    cases rest with
    | nil => rfl
    | cons b rest2 =>
      obtain ⟨y, ys, hy⟩ : ∃ y ys, mapLast g (b :: rest2) = y :: ys := by
        cases rest2 <;> exact ⟨_, _, rfl⟩
      simp only [mapLast]
      rw [hy, ← ih, hy]
      simp [mapLast]

theorem mapLast_congr (f g : Str → Str) (l : List Str) (h : ∀ p ∈ l, f p = g p) :
    mapLast f l = mapLast g l := by
  induction l with
  | nil => rfl
  | cons a rest ih =>
    cases rest with
    | nil => simp [mapLast, h a (List.mem_cons_self a [])]
    | cons b rest2 =>
      simp only [mapLast]
      rw [ih (fun p hp => h p (List.mem_cons_of_mem a hp))]

/-!
## Canonical separator form

`stripSep sep (collapseSep sep l)` has no adjacent separators and no
separator at either end; splitting such a string yields non-empty parts,
and joining non-empty separator-free parts yields such a string again.
These facts drive the idempotence of `normalize`.
-/

def NoAdjSep (sep : Char) (l : Str) : Prop :=
  List.Chain' (fun a b => ¬(a = sep ∧ b = sep)) l

theorem collapseSep_cons_exists (sep : Char) :
    ∀ (d : Char) (rest : Str), ∃ t, collapseSep sep (d :: rest) = d :: t
  | _, [] => ⟨[], rfl⟩
  | d, e :: rest => by
    by_cases h : d = sep ∧ e = sep
    · obtain ⟨t, ht⟩ := collapseSep_cons_exists sep e rest
      obtain ⟨h1, h2⟩ := h
      subst h1
      subst h2
      exact ⟨t, by simpa [collapseSep] using ht⟩
    · exact ⟨collapseSep sep (e :: rest), by simp [collapseSep, h]⟩

theorem chain_collapseSep (sep : Char) : ∀ (l : Str), NoAdjSep sep (collapseSep sep l)
  | [] => by simp [collapseSep, NoAdjSep]
  | [c] => by simp [collapseSep, NoAdjSep]
  | c :: d :: rest => by
    have ih := chain_collapseSep sep (d :: rest)
    by_cases h : c = sep ∧ d = sep
    · obtain ⟨h1, h2⟩ := h
      subst h1
      subst h2
      simpa [collapseSep] using ih
    · obtain ⟨t, ht⟩ := collapseSep_cons_exists sep d rest
      have heq : collapseSep sep (c :: d :: rest) = c :: collapseSep sep (d :: rest) := by
        simp [collapseSep, h]
      rw [heq, ht]
      refine List.chain'_cons'.mpr ⟨?_, ht ▸ ih⟩
      intro b hb
      simp at hb
      rw [← hb]
      exact h

theorem noAdj_suffix (sep : Char) (l1 l2 : Str) (hs : l1 <:+ l2) (h : NoAdjSep sep l2) :
    NoAdjSep sep l1 := by
  obtain ⟨s, rfl⟩ := hs
  exact (List.chain'_append.mp h).2.1

theorem noAdj_reverse (sep : Char) (l : Str) (h : NoAdjSep sep l) : NoAdjSep sep l.reverse :=
  List.chain'_reverse.mpr (h.imp (fun _ _ hab hrel => hab ⟨hrel.2, hrel.1⟩))

theorem chain_stripSep (sep : Char) (l : Str) (h : NoAdjSep sep l) :
    NoAdjSep sep (stripSep sep l) := by
  unfold stripSep
  apply noAdj_reverse
  apply noAdj_suffix sep _ _ (List.dropWhile_suffix _)
  apply noAdj_reverse
  exact noAdj_suffix sep _ _ (List.dropWhile_suffix _) h

theorem head?_dropWhile_false (p : Char → Bool) (l : Str) :
    ∀ a, (l.dropWhile p).head? = some a → p a = false := by
  induction l with
  | nil => intro a ha; simp at ha
  | cons c rest ih =>
    intro a ha
    by_cases hc : p c
    · exact ih a (by simpa [List.dropWhile_cons, hc] using ha)
    · simp [List.dropWhile_cons, hc] at ha
      rw [← ha]
      simpa using hc

theorem getLast?_dropWhile_of_ne_nil (p : Char → Bool) (l : Str)
    (hne : l.dropWhile p ≠ []) : (l.dropWhile p).getLast? = l.getLast? := by
  obtain ⟨s, hs⟩ := List.dropWhile_suffix (l := l) p
  conv_rhs => rw [← hs]
  exact (List.getLast?_append_of_ne_nil s hne).symm

theorem stripSep_head (sep : Char) (l : Str) :
    ∀ c, (stripSep sep l).head? = some c → c ≠ sep := by
  intro c hc
  unfold stripSep at hc
  rw [List.head?_reverse] at hc
  have hne : ((l.dropWhile (· = sep)).reverse.dropWhile (· = sep)) ≠ [] := by
    intro hnil
    rw [hnil] at hc
    simp at hc
  rw [getLast?_dropWhile_of_ne_nil _ _ hne, List.getLast?_reverse] at hc
  have := head?_dropWhile_false (· = sep) l c hc
  simpa using this

theorem stripSep_last (sep : Char) (l : Str) :
    ∀ c, (stripSep sep l).getLast? = some c → c ≠ sep := by
  intro c hc
  unfold stripSep at hc
  rw [List.getLast?_reverse] at hc
  have := head?_dropWhile_false (· = sep) (l.dropWhile (· = sep)).reverse c hc
  simpa using this

theorem collapseSep_eq_self (sep : Char) : ∀ (l : Str), NoAdjSep sep l → collapseSep sep l = l
  | [], _ => rfl
  | [_], _ => rfl
  | c :: d :: rest, h => by
    obtain ⟨hrel, htail⟩ := List.chain'_cons.mp h
    have ih := collapseSep_eq_self sep (d :: rest) htail
    simp [collapseSep, hrel, ih]

theorem dropWhile_eq_self_of_head (p : Char → Bool) (l : Str)
    (h : ∀ c, l.head? = some c → p c = false) : l.dropWhile p = l := by
  cases l with
  | nil => rfl
  | cons c rest => simp [List.dropWhile_cons, h c rfl]

theorem stripSep_eq_self (sep : Char) (l : Str)
    (h1 : ∀ c, l.head? = some c → c ≠ sep) (h2 : ∀ c, l.getLast? = some c → c ≠ sep) :
    stripSep sep l = l := by
  unfold stripSep
  rw [dropWhile_eq_self_of_head (· = sep) l (fun c hc => by simpa using h1 c hc)]
  rw [dropWhile_eq_self_of_head (· = sep) l.reverse
    (fun c hc => by
      rw [List.head?_reverse] at hc
      simpa using h2 c hc)]
  exact List.reverse_reverse l

theorem noAdj_of_not_mem (sep : Char) : ∀ (l : Str), sep ∉ l → NoAdjSep sep l
  | [], _ => by simp [NoAdjSep]
  | [c], _ => by simp [NoAdjSep]
  | c :: d :: rest, h => by
    refine List.chain'_cons.mpr ⟨?_, noAdj_of_not_mem sep (d :: rest) ?_⟩
    · intro hcd
      exact h (hcd.1 ▸ List.mem_cons_self c _)
    · intro hmem
      exact h (List.mem_cons_of_mem c hmem)

theorem joinSep_canonical (sep : Char) : ∀ (ps : List Str), ps ≠ [] →
    (∀ p ∈ ps, p ≠ [] ∧ sep ∉ p) →
    NoAdjSep sep (joinSep sep ps) ∧
      (∀ c, (joinSep sep ps).head? = some c → c ≠ sep) ∧
      (∀ c, (joinSep sep ps).getLast? = some c → c ≠ sep)
  | [], hne, _ => absurd rfl hne
  | [p], _, h => by
    have hp := h p (List.mem_cons_self p [])
    refine ⟨noAdj_of_not_mem sep p hp.2, ?_, ?_⟩
    · intro c hc heq
      exact hp.2 (heq ▸ List.mem_of_mem_head? hc)
    · intro c hc heq
      exact hp.2 (heq ▸ List.mem_of_mem_getLast? hc)
  | p :: q :: qs, _, h => by
    have hp := h p (List.mem_cons_self p _)
    have hrest : ∀ r ∈ q :: qs, r ≠ [] ∧ sep ∉ r := fun r hr => h r (List.mem_cons_of_mem p hr)
    obtain ⟨ihChain, ihHead, ihLast⟩ := joinSep_canonical sep (q :: qs) (by simp) hrest
    have hjoin_ne : joinSep sep (q :: qs) ≠ [] :=
      joinSep_ne_nil sep q qs (hrest q (List.mem_cons_self q qs)).1
    have hshape : joinSep sep (p :: q :: qs) = p ++ sep :: joinSep sep (q :: qs) := by
      simp [joinSep]
    refine ⟨?_, ?_, ?_⟩
    · rw [hshape]
      refine List.chain'_append.mpr ⟨noAdj_of_not_mem sep p hp.2, ?_, ?_⟩
      · refine List.chain'_cons'.mpr ⟨?_, ihChain⟩
        intro b hb hrel
        exact ihHead b hb hrel.2
      · intro x hx y hy
        simp at hy
        intro hrel
        exact hp.2 (hrel.1 ▸ List.mem_of_mem_getLast? hx)
    · rw [hshape]
      intro c hc
      rw [List.head?_append_of_ne_nil _ hp.1] at hc
      intro heq
      exact hp.2 (heq ▸ List.mem_of_mem_head? hc)
    · rw [hshape]
      intro c hc
      rw [List.getLast?_append_of_ne_nil _ (by simp)] at hc
      have : (sep :: joinSep sep (q :: qs)).getLast? = (joinSep sep (q :: qs)).getLast? := by
        rw [show sep :: joinSep sep (q :: qs) = [sep] ++ joinSep sep (q :: qs) from rfl]
        exact List.getLast?_append_of_ne_nil _ hjoin_ne
      rw [this] at hc
      exact ihLast c hc

theorem splitSep_parts_ne_nil_aux (sep : Char) : ∀ (n : Nat) (l : Str), l.length ≤ n →
    l ≠ [] → (∀ c, l.head? = some c → c ≠ sep) → NoAdjSep sep l →
    (∀ c, l.getLast? = some c → c ≠ sep) → ∀ p ∈ splitSep sep l, p ≠ [] := by
  intro n
  induction n with
  | zero =>
    intro l hl hne
    cases l with
    | nil => exact absurd rfl hne
    | cons c rest => simp at hl
  | succ n ih =>
    intro l hl hne hhead hchain hlast p hp
    match l with
    | [c] =>
      have hc : c ≠ sep := hhead c rfl
      simp [splitSep, hc] at hp
      simp [hp]
    | c :: d :: rest =>
      have hc : c ≠ sep := hhead c rfl
      cases hsp : splitSep sep (d :: rest) with
      | nil => exact absurd hsp (splitSep_ne_nil sep _)
      | cons h t =>
        have hps : splitSep sep (c :: d :: rest) = (c :: h) :: t := by
          rw [splitSep, if_neg hc, hsp]
        rw [hps] at hp
        rcases List.mem_cons.mp hp with hp1 | hp1
        · simp [hp1]
        · by_cases hd : d = sep
          · cases rest with
            | nil => exact absurd hd (hlast d (by simp))
            | cons r0 rest2 =>
              have hchain2 : NoAdjSep sep (d :: r0 :: rest2) := hchain.tail
              have hrel := (List.chain'_cons.mp hchain2).1
              have hr0 : r0 ≠ sep := fun he => hrel ⟨hd, he⟩
              have hlastEq : (c :: d :: r0 :: rest2).getLast? = (r0 :: rest2).getLast? := by
                rw [show c :: d :: r0 :: rest2 = [c, d] ++ (r0 :: rest2) from rfl]
                exact List.getLast?_append_of_ne_nil _ (by simp)
              have hlast2 : ∀ x, (r0 :: rest2).getLast? = some x → x ≠ sep := by
                intro x hx
                exact hlast x (hlastEq ▸ hx)
              have hsp2 : splitSep sep (d :: r0 :: rest2) = [] :: splitSep sep (r0 :: rest2) := by
                rw [splitSep, if_pos hd]
              rw [hsp2] at hsp
              injection hsp with hh ht
              refine ih (r0 :: rest2) (by simp at hl ⊢; omega) (by simp) ?_ hchain2.tail hlast2
                p (ht ▸ hp1)
              intro x hx
              simp at hx
              rw [← hx]
              exact hr0
          · have hlast2 : ∀ x, (d :: rest).getLast? = some x → x ≠ sep := by
              intro x hx
              apply hlast
              rw [show c :: d :: rest = [c] ++ (d :: rest) from rfl]
              rw [List.getLast?_append_of_ne_nil _ (by simp)]
              exact hx
            have hall := ih (d :: rest) (by simp at hl ⊢; omega) (by simp)
              (fun x hx => by simp at hx; rw [← hx]; exact hd) hchain.tail hlast2
            rw [hsp] at hall
            exact hall p (List.mem_cons_of_mem h hp1)

theorem splitSep_parts_ne_nil (sep : Char) (l : Str) (hne : l ≠ [])
    (hhead : ∀ c, l.head? = some c → c ≠ sep) (hchain : NoAdjSep sep l)
    (hlast : ∀ c, l.getLast? = some c → c ≠ sep) : ∀ p ∈ splitSep sep l, p ≠ [] :=
  splitSep_parts_ne_nil_aux sep l.length l le_rfl hne hhead hchain hlast

theorem mem_collapseSep (sep : Char) : ∀ (l : Str) (c : Char), c ∈ collapseSep sep l → c ∈ l
  | [], _, h => by simp [collapseSep] at h
  | [d], c, h => by simpa [collapseSep] using h
  | d :: e :: rest, c, h => by
    by_cases hde : d = sep ∧ e = sep
    · have hcol : collapseSep sep (d :: e :: rest) = collapseSep sep (e :: rest) := by
        simp [collapseSep, hde.1, hde.2]
      rw [hcol] at h
      exact List.mem_cons_of_mem d (mem_collapseSep sep (e :: rest) c h)
    · have hcol : collapseSep sep (d :: e :: rest) = d :: collapseSep sep (e :: rest) := by
        simp [collapseSep, hde]
      rw [hcol] at h
      rcases List.mem_cons.mp h with h1 | h1
      · exact h1 ▸ List.mem_cons_self d _
      · exact List.mem_cons_of_mem d (mem_collapseSep sep (e :: rest) c h1)

theorem mem_stripSep (sep : Char) (l : Str) (c : Char) (h : c ∈ stripSep sep l) : c ∈ l := by
  unfold stripSep at h
  rw [List.mem_reverse] at h
  have h2 := (List.dropWhile_sublist (l := (l.dropWhile (· = sep)).reverse) (· = sep)).subset h
  rw [List.mem_reverse] at h2
  exact (List.dropWhile_sublist (l := l) (· = sep)).subset h2

theorem map_eq_self_of (f : Char → Char) (l : Str) (h : ∀ c ∈ l, f c = c) : l.map f = l := by
  induction l with
  | nil => rfl
  | cons c rest ih =>
    simp only [List.map_cons]
    rw [h c (List.mem_cons_self c rest), ih (fun x hx => h x (List.mem_cons_of_mem c hx))]

theorem dropWhile_eq_self_of_all (p : Char → Bool) (l : Str)
    (h : ∀ c ∈ l, p c = false) : l.dropWhile p = l := by
  cases l with
  | nil => rfl
  | cons c rest => simp [List.dropWhile_cons, h c (List.mem_cons_self c rest)]

theorem stripEnds_eq_self (l : Str) (h : ∀ c ∈ l, isWsChar c = false) : stripEnds l = l := by
  unfold stripEnds
  rw [dropWhile_eq_self_of_all _ _ h,
    dropWhile_eq_self_of_all _ _ (fun c hc => h c (List.mem_reverse.mp hc)),
    List.reverse_reverse]

/-- The combined guard of `_repair_first_block_separator` on the first
part (length ≥ 4, alphabetic first character, alphanumeric). -/
def repairFires (p0 : Str) : Bool :=
  decide (4 ≤ p0.length) && (p0.headD ' ').isAlpha && pyIsAlnumStr p0

theorem repair_eq_of_parts3 (cfg : Config) (text p0 p1 p2 : Str)
    (h : splitSep cfg.expectedSeparator text = [p0, p1, p2]) :
    repairFirstBlockSeparator cfg text =
      if repairFires p0 then
        joinSep cfg.expectedSeparator [[p0.headD ' '], p0.tail, p1, p2]
      else text := by
  unfold repairFirstBlockSeparator
  rw [h]
  cases p0 with
  | nil => simp [repairFires]
  | cons c0 restFirst =>
    simp only [repairFires]
    by_cases halpha : c0.isAlpha <;> by_cases halnum : pyIsAlnumStr (c0 :: restFirst)
    all_goals simp [halpha, halnum]
    all_goals split_ifs
    all_goals first | rfl | omega

theorem repair_eq_of_len_ne3 (cfg : Config) (text : Str)
    (h : (splitSep cfg.expectedSeparator text).length ≠ 3) :
    repairFirstBlockSeparator cfg text = text := by
  unfold repairFirstBlockSeparator
  rcases hps : splitSep cfg.expectedSeparator text with _ | ⟨a, _ | ⟨b, _ | ⟨c, _ | ⟨d, rest⟩⟩⟩⟩
  · rfl
  · rfl
  · rfl
  · rw [hps] at h
    simp at h
  · rfl

theorem allowed_char_facts :
    ∀ c ∈ defaultConfig.characterWhitelist ++ [defaultConfig.expectedSeparator],
      Char.toUpper c = c ∧ isWsChar c = false ∧
        (mapGetD defaultConfig.ambiguousMap c = '-' ↔ c = '-') ∧
        (defaultConfig.characterWhitelist ++ [defaultConfig.expectedSeparator]).contains
          (mapGetD defaultConfig.ambiguousMap c) = true := by
  decide

theorem normalizeSerial_ne_nil (cfg : Config) (q : Str) (h : q ≠ []) :
    normalizeSerial cfg q ≠ [] := by
  cases q with
  | nil => exact absurd rfl h
  | cons a t => cases t <;> simp [normalizeSerial]

theorem mem_normalizeSerial (cfg : Config) (q : Str) (c : Char)
    (h : c ∈ normalizeSerial cfg q) : ∃ d ∈ q, c = d ∨ c = mapGetD cfg.ambiguousMap d := by
  cases q with
  | nil => simp [normalizeSerial] at h
  | cons a t =>
    cases t with
    | nil =>
      simp [normalizeSerial] at h
      exact ⟨a, by simp, Or.inl h⟩
    | cons b t2 =>
      simp only [normalizeSerial] at h
      rcases List.mem_cons.mp h with h1 | h1
      · exact ⟨a, by simp, Or.inl h1⟩
      · obtain ⟨d, hd, hcd⟩ := List.mem_map.mp h1
        exact ⟨d, List.mem_cons_of_mem a hd, Or.inr hcd.symm⟩

theorem ambMap_idem (d : Char) :
    mapGetD defaultConfig.ambiguousMap (mapGetD defaultConfig.ambiguousMap d) =
      mapGetD defaultConfig.ambiguousMap d := by
  rcases hf : (defaultConfig.ambiguousMap).find? (fun p => p.1 = d) with _ | pr
  · simp [mapGetD, mapLookup, hf]
  · have hpr := List.mem_of_find?_eq_some hf
    have hval : mapGetD defaultConfig.ambiguousMap d = pr.2 := by
      simp [mapGetD, mapLookup, hf]
    rw [hval]
    fin_cases hpr <;> decide

theorem normalizeSerial_idem (q : Str) :
    normalizeSerial defaultConfig (normalizeSerial defaultConfig q) =
      normalizeSerial defaultConfig q := by
  cases q with
  | nil => rfl
  | cons a t =>
    cases t with
    | nil => rfl
    | cons b t2 =>
      simp only [normalizeSerial, List.map_cons, List.map_map, List.cons.injEq]
      refine ⟨trivial, ambMap_idem b, ?_⟩
      exact List.map_congr_left (fun x _ => by
        simp only [Function.comp_apply]
        exact ambMap_idem x)

/-- The allowed-character set of the default configuration (whitelist plus
separator), used in the statements of the normalization lemmas. -/
def allowedList : Str :=
  defaultConfig.characterWhitelist ++ [defaultConfig.expectedSeparator]

theorem normalize_eq_of_ne (cfg : Config) (x : Str) (h : x.isEmpty = false) :
    normalize cfg x = joinSep cfg.expectedSeparator (mapLast (normalizeSerial cfg)
      (splitSep cfg.expectedSeparator
        (repairFirstBlockSeparator cfg (canonStage cfg (sanitizeStage cfg x))))) := by
  simp [normalize, h]

theorem mapLast_headD (f : Str → Str) (a b : Str) (t : List Str) :
    (mapLast f (a :: b :: t)).headD [] = a := by
  simp [mapLast]

/-- The canonical-form description of the output of `normalize` at the
default configuration: either empty, or the separator-join of non-empty,
separator-free, whitelisted parts on which the serial-normalization of the
last part is already a fixed point and on which a second
`_repair_first_block_separator` pass cannot fire. -/
theorem normalize_spec (x : Str) :
    normalize defaultConfig x = [] ∨
    ∃ rs : List Str,
      normalize defaultConfig x = joinSep '-' rs ∧ rs ≠ [] ∧
      (∀ p ∈ rs, p ≠ [] ∧ '-' ∉ p ∧ ∀ c ∈ p, c ∈ allowedList) ∧
      mapLast (normalizeSerial defaultConfig) rs = rs ∧
      (rs.length = 3 → repairFires (rs.headD []) = false) := by
  by_cases hx : x.isEmpty
  · left
    simp [normalize, hx]
  · have hxf : x.isEmpty = false := by simpa using hx
    have hsepeq : defaultConfig.expectedSeparator = '-' := rfl
    have hs2eq : canonStage defaultConfig (sanitizeStage defaultConfig x) =
        stripSep '-' (collapseSep '-' (sanitizeStage defaultConfig x)) := rfl
    set s2 := canonStage defaultConfig (sanitizeStage defaultConfig x) with hs2def
    have hnorm : normalize defaultConfig x =
        joinSep '-' (mapLast (normalizeSerial defaultConfig)
          (splitSep '-' (repairFirstBlockSeparator defaultConfig s2))) := by
      rw [normalize_eq_of_ne defaultConfig x hxf]
      simp only [hsepeq, hs2def]
    have hs2chars : ∀ c ∈ s2, c ∈ allowedList := by
      intro c hc
      rw [hs2eq] at hc
      have h1 := mem_stripSep _ _ _ hc
      have h2 := mem_collapseSep _ _ _ h1
      unfold sanitizeStage at h2
      have h3 := List.mem_filter.mp h2
      exact List.elem_iff.mp h3.2
    have hchain : NoAdjSep '-' s2 := hs2eq ▸ chain_stripSep '-' _ (chain_collapseSep '-' _)
    have hhead : ∀ c, s2.head? = some c → c ≠ '-' := fun c hc =>
      stripSep_head '-' _ c (hs2eq ▸ hc)
    have hlast : ∀ c, s2.getLast? = some c → c ≠ '-' := fun c hc =>
      stripSep_last '-' _ c (hs2eq ▸ hc)
    -- the serial-normalized parts of the repaired string serve as `rs`
    have finish : ∀ qs : List Str,
        splitSep '-' (repairFirstBlockSeparator defaultConfig s2) = qs → qs ≠ [] →
        (∀ q ∈ qs, q ≠ [] ∧ '-' ∉ q ∧ ∀ c ∈ q, c ∈ allowedList) →
        (qs.length = 3 → repairFires (qs.headD []) = false) →
        normalize defaultConfig x = [] ∨
        ∃ rs : List Str,
          normalize defaultConfig x = joinSep '-' rs ∧ rs ≠ [] ∧
          (∀ p ∈ rs, p ≠ [] ∧ '-' ∉ p ∧ ∀ c ∈ p, c ∈ allowedList) ∧
          mapLast (normalizeSerial defaultConfig) rs = rs ∧
          (rs.length = 3 → repairFires (rs.headD []) = false) := by
      intro qs hsplit hqs_ne hqs_props hqs_fire
      right
      refine ⟨mapLast (normalizeSerial defaultConfig) qs, ?_, ?_, ?_, ?_, ?_⟩
      · rw [hnorm, hsplit]
      · intro hnil
        have := mapLast_length (normalizeSerial defaultConfig) qs
        rw [hnil] at this
        exact hqs_ne (List.length_eq_zero.mp this.symm)
      · intro p hp
        rcases mem_mapLast _ _ _ hp with hmem | ⟨q, hq, rfl⟩
        · exact hqs_props p hmem
        · obtain ⟨hq_ne, hq_nosep, hq_chars⟩ := hqs_props q hq
          refine ⟨normalizeSerial_ne_nil _ q hq_ne, ?_, ?_⟩
          · intro hmem
            obtain ⟨d, hd, hcd⟩ := mem_normalizeSerial _ q '-' hmem
            rcases hcd with hcd | hcd
            · exact hq_nosep (hcd ▸ hd)
            · have hfacts := allowed_char_facts d (hq_chars d hd)
              have : d = '-' := hfacts.2.2.1.mp hcd.symm
              exact hq_nosep (this ▸ hd)
          · intro c hc
            obtain ⟨d, hd, hcd⟩ := mem_normalizeSerial _ q c hc
            rcases hcd with hcd | hcd
            · exact hcd ▸ hq_chars d hd
            · have hfacts := allowed_char_facts d (hq_chars d hd)
              rw [hcd]
              exact List.elem_iff.mp hfacts.2.2.2
      · rw [mapLast_mapLast]
        exact mapLast_congr _ _ qs (fun p _ => normalizeSerial_idem p)
      · intro hlen3
        rw [mapLast_length] at hlen3
        obtain ⟨a, b, c, rfl⟩ := List.length_eq_three.mp hlen3
        rw [mapLast_headD]
        have := hqs_fire hlen3
        simpa using this
    by_cases h3 : (splitSep '-' s2).length = 3
    · obtain ⟨p0, p1, p2, hsp⟩ := List.length_eq_three.mp h3
      have hs2ne : s2 ≠ [] := by
        intro hnil
        rw [hnil] at hsp
        simp [splitSep] at hsp
      have hparts_ne := splitSep_parts_ne_nil '-' s2 hs2ne hhead hchain hlast
      have hparts_nosep := mem_splitSep_not_sep '-' s2
      have hparts_chars : ∀ p ∈ splitSep '-' s2, ∀ c ∈ p, c ∈ allowedList :=
        fun p hp c hc => hs2chars c (mem_of_mem_splitSep '-' s2 p hp c hc)
      have hrep := repair_eq_of_parts3 defaultConfig s2 p0 p1 p2 (hsepeq ▸ hsp)
      have hp0mem : p0 ∈ splitSep '-' s2 := hsp ▸ List.mem_cons_self p0 _
      have hp1mem : p1 ∈ splitSep '-' s2 := hsp ▸ by simp
      have hp2mem : p2 ∈ splitSep '-' s2 := hsp ▸ by simp
      by_cases hfire : repairFires p0
      · rw [if_pos hfire] at hrep
        have hp0len : 4 ≤ p0.length := by
          unfold repairFires at hfire
          simp only [Bool.and_eq_true, decide_eq_true_eq] at hfire
          exact hfire.1.1
        obtain ⟨c0, rest0, rfl⟩ : ∃ c0 rest0, p0 = c0 :: rest0 := by
          cases p0 with
          | nil => simp at hp0len
          | cons a t => exact ⟨a, t, rfl⟩
        simp only [List.headD_cons, List.tail_cons] at hrep
        have hqs_props : ∀ q ∈ [[c0], rest0, p1, p2], q ≠ [] ∧ '-' ∉ q ∧
            ∀ c ∈ q, c ∈ allowedList := by
          intro q hq
          have hsub : ∀ c ∈ c0 :: rest0, c ∉ ([] : Str) ∨ True := fun _ _ => Or.inr trivial
          simp only [List.mem_cons, List.not_mem_nil, or_false] at hq
          rcases hq with rfl | rfl | rfl | rfl
          · refine ⟨by simp, ?_, ?_⟩
            · intro hmem
              simp at hmem
              exact hparts_nosep _ hp0mem (hmem ▸ List.mem_cons_self c0 rest0)
            · intro c hc
              simp at hc
              subst hc
              exact hparts_chars _ hp0mem _ (List.mem_cons_self _ _)
          · refine ⟨?_, ?_, ?_⟩
            · intro hnil
              rw [hnil] at hp0len
              simp at hp0len
            · intro hmem
              exact hparts_nosep _ hp0mem (List.mem_cons_of_mem c0 hmem)
            · intro c hc
              exact hparts_chars _ hp0mem c (List.mem_cons_of_mem c0 hc)
          · exact ⟨hparts_ne _ hp1mem, hparts_nosep _ hp1mem, hparts_chars _ hp1mem⟩
          · exact ⟨hparts_ne _ hp2mem, hparts_nosep _ hp2mem, hparts_chars _ hp2mem⟩
        refine finish [[c0], rest0, p1, p2] ?_ (by simp) hqs_props (by intro hc; simp at hc)
        rw [hrep, hsepeq]
        exact splitSep_joinSep '-' _ (by simp) (fun q hq => (hqs_props q hq).2.1)
      · rw [if_neg hfire] at hrep
        refine finish [p0, p1, p2] ?_ (by simp) ?_ ?_
        · rw [hrep]
          exact hsp
        · intro q hq
          simp only [List.mem_cons, List.not_mem_nil, or_false] at hq
          rcases hq with rfl | rfl | rfl
          · exact ⟨hparts_ne q hp0mem, hparts_nosep q hp0mem, hparts_chars q hp0mem⟩
          · exact ⟨hparts_ne q hp1mem, hparts_nosep q hp1mem, hparts_chars q hp1mem⟩
          · exact ⟨hparts_ne q hp2mem, hparts_nosep q hp2mem, hparts_chars q hp2mem⟩
        · intro _
          simpa using hfire
    · by_cases hs2e : s2 = []
      · left
        rw [hnorm, hs2e]
        rfl
      · have hparts_ne := splitSep_parts_ne_nil '-' s2 hs2e hhead hchain hlast
        have hparts_nosep := mem_splitSep_not_sep '-' s2
        have hparts_chars : ∀ p ∈ splitSep '-' s2, ∀ c ∈ p, c ∈ allowedList :=
          fun p hp c hc => hs2chars c (mem_of_mem_splitSep '-' s2 p hp c hc)
        refine finish (splitSep '-' s2) ?_ (splitSep_ne_nil '-' s2) ?_ ?_
        · rw [repair_eq_of_len_ne3 defaultConfig s2 (by rw [hsepeq]; exact h3)]
        · exact fun q hq => ⟨hparts_ne q hq, hparts_nosep q hq, hparts_chars q hq⟩
        · intro hc
          exact absurd hc h3

/-- `_normalize` is idempotent at the default configuration: a second pass
leaves every stage unchanged on the canonical output of the first. -/
theorem normalize_idem (x : Str) :
    normalize defaultConfig (normalize defaultConfig x) = normalize defaultConfig x := by
  rcases normalize_spec x with h0 | ⟨rs, hy, hrs_ne, hprops, hidem, hfire⟩
  · rw [h0]
    simp [normalize]
  · rw [hy]
    obtain ⟨p, ps, rfl⟩ : ∃ p ps, rs = p :: ps := by
      cases rs with
      | nil => exact absurd rfl hrs_ne
      | cons p ps => exact ⟨p, ps, rfl⟩
    have hyne : joinSep '-' (p :: ps) ≠ [] :=
      joinSep_ne_nil '-' p ps (hprops p (List.mem_cons_self p ps)).1
    have hxf : (joinSep '-' (p :: ps)).isEmpty = false := by
      simpa [List.isEmpty_iff] using hyne
    have hsepeq : defaultConfig.expectedSeparator = '-' := rfl
    have hchars : ∀ c ∈ joinSep '-' (p :: ps), c ∈ allowedList := by
      intro c hc
      rcases mem_joinSep '-' _ c hc with rfl | ⟨q, hq, hcq⟩
      · decide
      · exact (hprops q hq).2.2 c hcq
    have h_sanitize : sanitizeStage defaultConfig (joinSep '-' (p :: ps)) =
        joinSep '-' (p :: ps) := by
      have h1 : stripEnds (joinSep '-' (p :: ps)) = joinSep '-' (p :: ps) :=
        stripEnds_eq_self _ (fun c hc => (allowed_char_facts c (hchars c hc)).2.1)
      have h2 : upperStr (joinSep '-' (p :: ps)) = joinSep '-' (p :: ps) :=
        map_eq_self_of _ _ (fun c hc => (allowed_char_facts c (hchars c hc)).1)
      have h3 : removeWs (joinSep '-' (p :: ps)) = joinSep '-' (p :: ps) :=
        List.filter_eq_self.mpr
          (fun c hc => by simp [(allowed_char_facts c (hchars c hc)).2.1])
      have h4 : (joinSep '-' (p :: ps)).filter
          (fun ch => (defaultConfig.characterWhitelist ++
            [defaultConfig.expectedSeparator]).contains ch) = joinSep '-' (p :: ps) :=
        List.filter_eq_self.mpr (fun c hc => List.elem_iff.mpr (hchars c hc))
      unfold sanitizeStage
      rw [h1, h2, h3, h4]
    have hcanon_facts := joinSep_canonical '-' (p :: ps) (by simp)
      (fun q hq => ⟨(hprops q hq).1, (hprops q hq).2.1⟩)
    have h_canon : canonStage defaultConfig (joinSep '-' (p :: ps)) = joinSep '-' (p :: ps) := by
      unfold canonStage
      rw [hsepeq, collapseSep_eq_self '-' _ hcanon_facts.1]
      exact stripSep_eq_self '-' _ hcanon_facts.2.1 hcanon_facts.2.2
    have h_split : splitSep '-' (joinSep '-' (p :: ps)) = p :: ps :=
      splitSep_joinSep '-' (p :: ps) (by simp) (fun q hq => (hprops q hq).2.1)
    have h_repair : repairFirstBlockSeparator defaultConfig (joinSep '-' (p :: ps)) =
        joinSep '-' (p :: ps) := by
      by_cases h3 : (p :: ps).length = 3
      · obtain ⟨a, b, c, habc⟩ := List.length_eq_three.mp h3
        have hfa : repairFires a = false := by
          have := hfire h3
          rw [habc] at this
          simpa using this
        have hrep := repair_eq_of_parts3 defaultConfig (joinSep '-' (p :: ps)) a b c
          (by rw [hsepeq, h_split, habc])
        rw [hrep, hfa]
        simp
      · rw [repair_eq_of_len_ne3 defaultConfig _ (by rw [hsepeq, h_split]; exact h3)]
    rw [normalize_eq_of_ne defaultConfig _ hxf]
    rw [show sanitizeStage defaultConfig (joinSep '-' (p :: ps)) = joinSep '-' (p :: ps) from
      h_sanitize]
    rw [show canonStage defaultConfig (joinSep '-' (p :: ps)) = joinSep '-' (p :: ps) from
      h_canon]
    rw [hsepeq, h_repair, h_split, hidem]

/-!
## Facts about `validate_and_score`
-/

theorem vas_snd (cfg : Config) (t : Str) : (validateAndScore cfg t).2 = normalize cfg t := by
  unfold validateAndScore
  by_cases h : (normalize cfg t).isEmpty
  · simp only [h, if_true]
    exact (List.isEmpty_iff.mp h).symm
  · simp only [h, Bool.false_eq_true, if_false]
    split <;> rfl

theorem headerPatternMatch_parts (l : Str) (h : headerPatternMatch l = true) :
    3 ≤ (splitSep '-' l).length := by
  unfold headerPatternMatch at h
  rcases hps : splitSep '-' l with _ | ⟨a, _ | ⟨b, _ | ⟨c, _ | ⟨d, rest⟩⟩⟩⟩ <;>
    rw [hps] at h <;> simp_all

/-- Claim C5 — **Idempotence of normalization**: the normalized text
returned by `validate_and_score` is a fixed point: feeding it back through
`validate_and_score` returns the same normalized text unchanged. -/
theorem c5_normalization_idempotent (x : Str) :
    (validateAndScore defaultConfig ((validateAndScore defaultConfig x).2)).2 =
      (validateAndScore defaultConfig x).2 := by
  rw [vas_snd, vas_snd]
  exact normalize_idem x

/-- Claim C10 — if either input normalizes to the empty string,
`headers_match` returns `False` for every threshold, including when the two
raw inputs are byte-identical. -/
theorem c10_empty_normalized_never_match (h1 h2 : Str) (t : ℚ)
    (h : normalize defaultConfig h1 = [] ∨ normalize defaultConfig h2 = []) :
    headersMatch defaultConfig h1 h2 t = false := by
  rcases h with h | h
  · simp [headersMatch, vas_snd, h]
  · simp [headersMatch, vas_snd, h]

theorem c10_witness :
    (normalize defaultConfig "??".toList = [] ∧
      headersMatch defaultConfig "??".toList "??".toList 1 = false) :=
  ⟨by decide, c10_empty_normalized_never_match _ _ 1 (Or.inl (by decide))⟩

/-- Claim C2 — **Strict-serial gate**: if `is_strict_header(s)` is false,
the score of `validate_and_score(s)` is at most the configured
`invalid_serial_score_cap` (default 89). -/
theorem c2_strict_serial_gate (s : Str) (h : isStrictHeader defaultConfig s = false) :
    (validateAndScore defaultConfig s).1 ≤ defaultConfig.invalidSerialScoreCap := by
  by_cases hne : (normalize defaultConfig s).isEmpty
  · simp [validateAndScore, hne]
  · have hsepeq : defaultConfig.expectedSeparator = '-' := rfl
    by_cases hser : validSerial defaultConfig
        (lastPart (splitSep defaultConfig.expectedSeparator (normalize defaultConfig s)))
    · have hlt : (splitSep defaultConfig.expectedSeparator
          (normalize defaultConfig s)).length < defaultConfig.minExpectedParts := by
        by_contra hge
        unfold isStrictHeader at h
        rw [vas_snd] at h
        simp only [hne, Bool.false_eq_true, if_false] at h
        rw [if_neg (by omega)] at h
        exact absurd h (by simp [hser])
      have h3eq : defaultConfig.minExpectedParts = 3 := rfl
      have hpat : headerPatternMatch (normalize defaultConfig s) = false := by
        by_contra hp
        have hp2 : headerPatternMatch (normalize defaultConfig s) = true := by
          simpa using hp
        have := headerPatternMatch_parts _ hp2
        rw [← hsepeq] at this
        omega
      have h4 : (splitSep defaultConfig.expectedSeparator
          (normalize defaultConfig s)).length ≠ defaultConfig.expectedParts := by
        have : defaultConfig.expectedParts = 4 := rfl
        omega
      have h3 : (splitSep defaultConfig.expectedSeparator
          (normalize defaultConfig s)).length ≠ defaultConfig.minExpectedParts := by omega
      have hstruct : scoreStructure defaultConfig
          (splitSep defaultConfig.expectedSeparator (normalize defaultConfig s)) = 0 := by
        unfold scoreStructure
        rw [if_neg h4, if_neg h3]
      have hbonus : ¬(defaultConfig.minExpectedParts ≤ (splitSep defaultConfig.expectedSeparator
          (normalize defaultConfig s)).length) := by omega
      have hcap : defaultConfig.invalidSerialScoreCap = 89 := rfl
      unfold validateAndScore
      simp only [hne, Bool.false_eq_true, if_false, hser, hstruct, hpat, hbonus, if_true,
        Bool.not_true, Bool.and_false, Bool.and_eq_true]
      split <;> omega
    · unfold validateAndScore
      simp only [hne, Bool.false_eq_true, if_false, hser]
      have : (!false) = true := rfl
      simp only [this, if_true]
      exact Nat.min_le_right _ _

theorem c2_witness :
    isStrictHeader defaultConfig "SOMEJUNK".toList = false ∧
      (validateAndScore defaultConfig "SOMEJUNK".toList).1 ≤
        defaultConfig.invalidSerialScoreCap :=
  ⟨by decide, c2_strict_serial_gate _ (by decide)⟩

/-- Claim C6 — **Non-strict serial conservatism**: for headers with
identical non-serial segments (≥ 3 segments each) whose serials are both
non-strict, `headers_match` returns `True` only when the serials are
exactly equal; in particular the pair `R4092558` / `R4092528` does not
match at threshold 0.85. -/
theorem c6_nonstrict_exact_equality :
    (∀ (h1 h2 : Str) (t : ℚ),
      3 ≤ (splitSep '-' (normalize defaultConfig h1)).length →
      3 ≤ (splitSep '-' (normalize defaultConfig h2)).length →
      (splitSep '-' (normalize defaultConfig h1)).dropLast =
        (splitSep '-' (normalize defaultConfig h2)).dropLast →
      validSerial defaultConfig (lastPart (splitSep '-' (normalize defaultConfig h1))) = false →
      validSerial defaultConfig (lastPart (splitSep '-' (normalize defaultConfig h2))) = false →
      headersMatch defaultConfig h1 h2 t = true →
      lastPart (splitSep '-' (normalize defaultConfig h1)) =
        lastPart (splitSep '-' (normalize defaultConfig h2))) ∧
    headersMatch defaultConfig "B-E-UUY-R4092558".toList "B-E-UUY-R4092528".toList
      (mkRat 85 100) = false := by
  constructor
  · intro h1 h2 t hl1 hl2 hpre hs1 hs2 hmatch
    have hsepeq : defaultConfig.expectedSeparator = '-' := rfl
    by_cases hab : normalize defaultConfig h1 = normalize defaultConfig h2
    · rw [hab]
    · have hane : (normalize defaultConfig h1).isEmpty = false := by
        cases hn : normalize defaultConfig h1 with
        | nil => rw [hn] at hl1; simp [splitSep] at hl1
        | cons c r => simp
      have hbne : (normalize defaultConfig h2).isEmpty = false := by
        cases hn : normalize defaultConfig h2 with
        | nil => rw [hn] at hl2; simp [splitSep] at hl2
        | cons c r => simp
      unfold headersMatch at hmatch
      rw [vas_snd, vas_snd, hsepeq] at hmatch
      simp [hane, hbne, hab, hs1, hs2, hl1, hl2, hpre,
        show defaultConfig.enableSerialBasedMatching = true from rfl] at hmatch
      exact hmatch
  · decide

/-- Witness for C6: a concrete non-strict pair (7-digit serials, so
`validSerial` is `false`) satisfying every hypothesis of the universal
half of the claim. -/
theorem c6_witness :
    lastPart (splitSep '-' (normalize defaultConfig "b-e-uuy-r409255".toList)) =
      lastPart (splitSep '-' (normalize defaultConfig "B-E-UUY-R409255".toList)) :=
  c6_nonstrict_exact_equality.1 "b-e-uuy-r409255".toList "B-E-UUY-R409255".toList
    (mkRat 85 100) (by decide) (by decide) (by decide) (by decide) (by decide) (by decide)

/-- Claim C1 evaluated at its failing input (the input of the repository's
own test `test_strict_headers_with_different_serials_do_not_match`): both
headers are strict with different serials, yet because their non-serial
segments differ the serial-equality branch is skipped and the
`SequenceMatcher` fallback (ratio 8/9 ≈ 0.889 ≥ 0.85) returns `True`. -/
theorem c1_strict_mismatch_similarity_bug :
    isStrictHeader defaultConfig "B-TW-UET-S18010794".toList = true ∧
    isStrictHeader defaultConfig "B-TW-UEI-S18010792".toList = true ∧
    lastPart (splitSep '-' (normalize defaultConfig "B-TW-UET-S18010794".toList)) ≠
      lastPart (splitSep '-' (normalize defaultConfig "B-TW-UEI-S18010792".toList)) ∧
    headersMatch defaultConfig "B-TW-UET-S18010794".toList "B-TW-UEI-S18010792".toList
      (mkRat 85 100) = true := by
  refine ⟨by decide, by decide, by decide, by decide⟩

/-- Claim C3 — **Context-correction merge**: the single-page tail-digit
variant group `(33,33)` is absorbed into its neighbours, collapsing to one
group spanning pages 31–34; the two multi-page groups whose serials differ
in the last digit are returned unchanged. -/
theorem c3_context_correction_merge :
    applyContextCorrection defaultConfig
        [(31, 32, "B-E-UUY-R4092527".toList), (33, 33, "B-E-UUY-R40925274".toList),
          (34, 34, "B-E-UUY-R4092527".toList)] =
      [(31, 34, "B-E-UUY-R4092527".toList)] ∧
    applyContextCorrection defaultConfig
        [(7, 8, "B-E-UUY-R4092558".toList), (9, 10, "B-E-UUY-R4092528".toList)] =
      [(7, 8, "B-E-UUY-R4092558".toList), (9, 10, "B-E-UUY-R4092528".toList)] := by
  refine ⟨by decide, by decide⟩

/-!
## Strict headers and the outlier-correction gate (claim C7)
-/

theorem lastPart_mem (l : List Str) (h : l ≠ []) : lastPart l ∈ l := by
  unfold lastPart
  rw [List.getLastD_eq_getLast?, List.getLast?_eq_getLast l h]
  simp [List.getLast_mem]

theorem strict_normalize_ne_nil (h : Str) (hs : isStrictHeader defaultConfig h = true) :
    normalize defaultConfig h ≠ [] := by
  intro hnil
  unfold isStrictHeader at hs
  rw [vas_snd, hnil] at hs
  simp at hs

theorem isStrictHeader_normalize (h : Str) :
    isStrictHeader defaultConfig (normalize defaultConfig h) =
      isStrictHeader defaultConfig h := by
  unfold isStrictHeader
  rw [vas_snd, vas_snd, normalize_idem]

/-- A strictly valid serial at the default configuration: allowed prefix
`S`/`R` followed by exactly 8 digits (after per-character uppercasing). -/
theorem validSerial_shape (s : Str) (h : validSerial defaultConfig s = true) :
    s ≠ [] ∧ ((upperStr s).headD ' ' = 'S' ∨ (upperStr s).headD ' ' = 'R') ∧
      (upperStr s).tail.all Char.isDigit = true ∧ (upperStr s).tail.length = 8 := by
  unfold validSerial at h
  by_cases h0 : s.isEmpty
  · simp [h0] at h
  · simp only [h0, Bool.false_eq_true, if_false] at h
    refine ⟨by simpa using h0, ?_⟩
    by_cases hstart :
        defaultConfig.patternSerialAllowedPrefixes.contains ((upperStr s).headD ' ') = true
    · have hpre : (upperStr s).headD ' ' = 'S' ∨ (upperStr s).headD ' ' = 'R' := by
        have : (upperStr s).headD ' ' ∈ defaultConfig.patternSerialAllowedPrefixes :=
          List.elem_iff.mp hstart
        simpa [defaultConfig] using this
      refine ⟨hpre, ?_⟩
      simp only [hstart, if_true, show defaultConfig.serialPrefixRequired = true from rfl,
        Bool.not_true, Bool.and_false, Bool.false_eq_true, if_false] at h
      by_cases hbe : (upperStr s).tail.isEmpty
      · simp [hbe] at h
      · simp only [hbe, Bool.false_eq_true, if_false] at h
        by_cases hdig : pyIsDigitStr (upperStr s).tail
        · have hall : (upperStr s).tail.all Char.isDigit = true := by
            unfold pyIsDigitStr at hdig
            simp only [Bool.and_eq_true] at hdig
            exact hdig.2
          refine ⟨hall, ?_⟩
          by_cases hlen : (upperStr s).tail.length = 8
          · exact hlen
          · exfalso
            simp [hdig, show defaultConfig.serialDigitsExact = 8 from rfl] at h
            apply hlen
            rw [List.length_tail, h.2.1]
        · simp [hdig] at h
    · exfalso
      simp [show defaultConfig.serialPrefixRequired = true from rfl] at h
      apply hstart
      apply List.elem_iff.mpr
      rw [List.headD_eq_head?_getD]
      exact h.1

/-- Claim C7 — the likely-OCR-error test used by the splitter's outlier
correction never merges two independently strict headers with different
normalized forms: at the default configuration a strict serial has exactly
8 digits, so the one-extra-trailing-digit repair can never apply to two
strict serials. -/
theorem c7_no_strict_strict_merge (h1 h2 : Str)
    (hs1 : isStrictHeader defaultConfig h1 = true)
    (hs2 : isStrictHeader defaultConfig h2 = true)
    (hne : normalize defaultConfig h1 ≠ normalize defaultConfig h2) :
    isLikelyOcrError defaultConfig h1 h2 = false := by
  have hn1 := strict_normalize_ne_nil h1 hs1
  have hn2 := strict_normalize_ne_nil h2 hs2
  rcases normalize_spec h1 with he1 | ⟨rs1, hy1, hrs1ne, hprops1, _, _⟩
  · exact absurd he1 hn1
  rcases normalize_spec h2 with he2 | ⟨rs2, hy2, hrs2ne, hprops2, _, _⟩
  · exact absurd he2 hn2
  have hsepeq : defaultConfig.expectedSeparator = '-' := rfl
  have hsplit1 : splitSep '-' (normalize defaultConfig h1) = rs1 := by
    rw [hy1]
    exact splitSep_joinSep '-' rs1 hrs1ne (fun q hq => (hprops1 q hq).2.1)
  have hsplit2 : splitSep '-' (normalize defaultConfig h2) = rs2 := by
    rw [hy2]
    exact splitSep_joinSep '-' rs2 hrs2ne (fun q hq => (hprops2 q hq).2.1)
  have hm3 : defaultConfig.minExpectedParts = 3 := rfl
  -- the strict facts transported to the normalized strings
  have hstrict1 : 3 ≤ rs1.length ∧
      validSerial defaultConfig (lastPart rs1) = true := by
    unfold isStrictHeader at hs1
    rw [vas_snd] at hs1
    rw [if_neg (by simp [List.isEmpty_iff, hn1])] at hs1
    rw [hsepeq, hsplit1] at hs1
    simp only [hm3] at hs1
    split at hs1
    · simp at hs1
    · rename_i hge
      exact ⟨by omega, hs1⟩
  have hstrict2 : 3 ≤ rs2.length ∧
      validSerial defaultConfig (lastPart rs2) = true := by
    unfold isStrictHeader at hs2
    rw [vas_snd] at hs2
    rw [if_neg (by simp [List.isEmpty_iff, hn2])] at hs2
    rw [hsepeq, hsplit2] at hs2
    simp only [hm3] at hs2
    split at hs2
    · simp at hs2
    · rename_i hge
      exact ⟨by omega, hs2⟩
  -- serial shapes
  have hserial1 := validSerial_shape _ hstrict1.2
  have hserial2 := validSerial_shape _ hstrict2.2
  have hupper1 : upperStr (lastPart rs1) = lastPart rs1 :=
    map_eq_self_of _ _ (fun c hc => (allowed_char_facts c
      ((hprops1 _ (lastPart_mem rs1 hrs1ne)).2.2 c hc)).1)
  have hupper2 : upperStr (lastPart rs2) = lastPart rs2 :=
    map_eq_self_of _ _ (fun c hc => (allowed_char_facts c
      ((hprops2 _ (lastPart_mem rs2 hrs2ne)).2.2 c hc)).1)
  rw [hupper1] at hserial1
  rw [hupper2] at hserial2
  -- the tail-digit-variant test is false
  have hie1 : (normalize defaultConfig h1).isEmpty = false := by
    simp [List.isEmpty_iff, hn1]
  have hie2 : (normalize defaultConfig h2).isEmpty = false := by
    simp [List.isEmpty_iff, hn2]
  have hvariant : isSerialTailDigitVariant defaultConfig (normalize defaultConfig h1)
      (normalize defaultConfig h2) = false := by
    unfold isSerialTailDigitVariant
    simp only [hie1, hie2, Bool.or_self, Bool.false_eq_true, if_false,
      hsepeq, hsplit1, hsplit2]
    rw [if_neg (by
      simp only [Bool.or_eq_true, decide_eq_true_eq, not_or, not_lt]
      exact ⟨hstrict1.1, hstrict2.1⟩)]
    by_cases hpre : rs1.dropLast = rs2.dropLast
    · rw [if_neg (by simp [hpre])]
      have hse1 : (lastPart rs1).isEmpty = false := by
        simp [List.isEmpty_iff, hserial1.1]
      have hse2 : (lastPart rs2).isEmpty = false := by
        simp [List.isEmpty_iff, hserial2.1]
      simp only [hse1, hse2, Bool.or_self, Bool.false_eq_true, if_false]
      by_cases hhead : (lastPart rs1).headD ' ' = (lastPart rs2).headD ' '
      · rw [if_neg (not_not_intro hhead)]
        have hfd1 : (lastPart rs1).tail.filter Char.isDigit = (lastPart rs1).tail :=
          List.filter_eq_self.mpr (fun c hc => by
            have := List.all_eq_true.mp hserial1.2.2.1 c hc
            simpa using this)
        have hfd2 : (lastPart rs2).tail.filter Char.isDigit = (lastPart rs2).tail :=
          List.filter_eq_self.mpr (fun c hc => by
            have := List.all_eq_true.mp hserial2.2.2.1 c hc
            simpa using this)
        rw [hfd1, hfd2]
        have hl1 : (lastPart rs1).tail.length = 8 := hserial1.2.2.2
        have hl2 : (lastPart rs2).tail.length = 8 := hserial2.2.2.2
        rw [if_neg (by
          simp only [Bool.or_eq_true, List.isEmpty_iff, not_or]
          constructor <;> intro hnil
          · rw [hnil] at hl1
            simp at hl1
          · rw [hnil] at hl2
            simp at hl2)]
        rw [if_pos (by simp [hl1, hl2])]
      · rw [if_pos (by simpa using hhead)]
    · rw [if_pos (by simpa using hpre)]
  -- now reduce the gate
  unfold isLikelyOcrError
  rw [vas_snd, vas_snd]
  simp only [hie1, hie2, Bool.false_eq_true, if_false]
  rw [if_pos]
  · exact hvariant
  · simp only [Bool.and_eq_true, decide_eq_true_eq]
    refine ⟨⟨?_, ?_⟩, hne⟩
    · rw [isStrictHeader_normalize]
      exact hs1
    · rw [isStrictHeader_normalize]
      exact hs2

theorem c7_witness :
    isStrictHeader defaultConfig "B-HK-FI4-S18008633".toList = true ∧
      isStrictHeader defaultConfig "B-HK-FI4-S18008634".toList = true ∧
      normalize defaultConfig "B-HK-FI4-S18008633".toList ≠
        normalize defaultConfig "B-HK-FI4-S18008634".toList ∧
      isLikelyOcrError defaultConfig "B-HK-FI4-S18008633".toList
        "B-HK-FI4-S18008634".toList = false :=
  ⟨by decide, by decide, by decide,
    c7_no_strict_strict_merge _ _ (by decide) (by decide) (by decide)⟩

/-!
## C4: the partition invariant of group detection and its preservation
-/

theorem coversB_append (a : List Group) :
    ∀ (b : List Group) (lo n hi : Int),
      coversB lo n a = true → coversB (n + 1) hi b = true →
      coversB lo hi (a ++ b) = true := by
  induction a with
  | nil =>
    intro b lo n hi ha hb
    simp only [coversB, decide_eq_true_eq] at ha
    rw [List.nil_append, ha]
    exact hb
  | cons g a ih =>
    intro b lo n hi ha hb
    obtain ⟨s, e, h⟩ := g
    simp only [coversB, Bool.and_eq_true, decide_eq_true_eq] at ha
    simp only [List.cons_append, coversB, Bool.and_eq_true, decide_eq_true_eq]
    exact ⟨ha.1, ih b (e + 1) n hi ha.2 hb⟩

theorem detectLoop_covers (cfg : Config) (t : ℚ) (rest : List (Int × Str)) :
    ∀ (cs : Int) (ch : Str) (chs : List Str) (pp : Int),
      consecutiveFromB (pp + 1) rest = true → cs ≤ pp →
      coversB cs (pp + (rest.length : Int)) (detectLoop cfg t cs ch chs pp rest) = true := by
  induction rest with
  | nil =>
    intro cs ch chs pp _ hle
    simp only [detectLoop, List.length_nil, Nat.cast_zero, add_zero, coversB,
      Bool.and_eq_true, decide_eq_true_eq]
    exact ⟨⟨trivial, hle⟩, trivial⟩
  | cons ph rest ih =>
    intro cs ch chs pp hcons hle
    obtain ⟨q, hd⟩ := ph
    simp only [consecutiveFromB, Bool.and_eq_true, decide_eq_true_eq] at hcons
    obtain ⟨hq, hcons2⟩ := hcons
    have hlen : pp + (((q, hd) :: rest).length : Int) = q + (rest.length : Int) := by
      simp only [List.length_cons]
      push_cast
      omega
    simp only [detectLoop]
    by_cases hm : headersMatch cfg hd ch t = true
    · rw [if_pos hm, hlen]
      exact ih cs ch (chs ++ [hd]) q (by rw [hq]; exact hcons2) (by omega)
    · rw [if_neg hm]
      simp only [coversB, Bool.and_eq_true, decide_eq_true_eq]
      refine ⟨⟨trivial, hle⟩, ?_⟩
      rw [hlen, ← hq]
      exact ih q hd [hd] q (by rw [hq]; exact hcons2) (le_refl q)

theorem coversB_getLast :
    ∀ (c : List Group) (lo n ps pe : Int) (ph : Str),
      coversB lo n c = true → c.getLast? = some (ps, pe, ph) →
      pe = n ∧ ps ≤ n ∧ coversB lo (ps - 1) c.dropLast = true := by
  intro c
  induction c with
  | nil =>
    intro lo n ps pe ph _ hl
    simp at hl
  | cons g c ih =>
    intro lo n ps pe ph hc hl
    obtain ⟨s, e, h⟩ := g
    simp only [coversB, Bool.and_eq_true, decide_eq_true_eq] at hc
    obtain ⟨⟨hs, hse⟩, hrest⟩ := hc
    cases c with
    | nil =>
      have hl1 : some (s, e, h) = some (ps, pe, ph) := hl
      have hl2 : s = ps ∧ e = pe ∧ h = ph := by
        simpa using hl1
      simp only [coversB, decide_eq_true_eq] at hrest
      refine ⟨by omega, by omega, ?_⟩
      simp only [List.dropLast_single, coversB, decide_eq_true_eq]
      omega
    | cons g2 c2 =>
      have hl2 : (g2 :: c2).getLast? = some (ps, pe, ph) := by
        rw [← hl]
        simp
      obtain ⟨hpe, hpsn, hcov⟩ := ih (e + 1) n ps pe ph hrest hl2
      refine ⟨hpe, hpsn, ?_⟩
      show coversB lo (ps - 1) ((s, e, h) :: (g2 :: c2).dropLast) = true
      simp only [coversB, Bool.and_eq_true, decide_eq_true_eq]
      exact ⟨⟨hs, hse⟩, hcov⟩

theorem contextCorrectionLoop_covers (cfg : Config) :
    ∀ (fuel : Nat) (corrected working : List Group) (lo n hi : Int),
      coversB lo n corrected = true → coversB (n + 1) hi working = true →
      coversB lo hi (contextCorrectionLoop cfg fuel corrected working) = true := by
  intro fuel
  induction fuel with
  | zero =>
    intro corrected working lo n hi hc hw
    cases working with
    | nil =>
      simp only [contextCorrectionLoop]
      simp only [coversB, decide_eq_true_eq] at hw
      have hn : n = hi := by omega
      rw [← hn]
      exact hc
    | cons w ws =>
      simp only [contextCorrectionLoop]
      exact coversB_append corrected (w :: ws) lo n hi hc hw
  | succ k ih =>
    intro corrected working lo n hi hc hw
    cases working with
    | nil =>
      simp only [contextCorrectionLoop]
      simp only [coversB, decide_eq_true_eq] at hw
      have hn : n = hi := by omega
      rw [← hn]
      exact hc
    | cons cur rest =>
      obtain ⟨cs, ce, chd⟩ := cur
      simp only [coversB, Bool.and_eq_true, decide_eq_true_eq] at hw
      obtain ⟨⟨hcs, hcse⟩, hrest⟩ := hw
      have hsingle : coversB (n + 1) ce [(cs, ce, chd)] = true := by
        simp only [coversB, Bool.and_eq_true, decide_eq_true_eq]
        exact ⟨⟨hcs, hcse⟩, trivial⟩
      have hkeep := ih (corrected ++ [(cs, ce, chd)]) rest lo ce hi
        (coversB_append corrected [(cs, ce, chd)] lo n ce hc hsingle) hrest
      simp only [contextCorrectionLoop]
      by_cases h1 : ce - cs + 1 = 1
      · rw [if_pos h1]
        split
        · split
          · -- merge into the previous group
            cases hlast : corrected.getLast? with
            | none => exact hkeep
            | some g =>
              obtain ⟨ps, pe, ph⟩ := g
              obtain ⟨hpe, hpsn, hdrop⟩ := coversB_getLast corrected lo n ps pe ph hc hlast
              have hsing2 : coversB ((ps - 1) + 1) ce [(ps, ce, ph)] = true := by
                simp only [coversB, Bool.and_eq_true, decide_eq_true_eq]
                exact ⟨⟨by omega, by omega⟩, trivial⟩
              exact ih (corrected.dropLast ++ [(ps, ce, ph)]) rest lo ce hi
                (coversB_append corrected.dropLast [(ps, ce, ph)] lo (ps - 1) ce hdrop hsing2)
                hrest
          · -- merge into the next group
            cases rest with
            | nil =>
              have h2 : coversB lo ce (corrected ++ [(cs, ce, chd)]) = true :=
                coversB_append corrected [(cs, ce, chd)] lo n ce hc hsingle
              simp only [coversB, decide_eq_true_eq] at hrest
              have hce : hi = ce := by omega
              rw [hce]
              exact h2
            | cons nxt rest2 =>
              obtain ⟨ns, ne2, nh⟩ := nxt
              simp only [coversB, Bool.and_eq_true, decide_eq_true_eq] at hrest
              obtain ⟨⟨hns, hnse⟩, hrest2⟩ := hrest
              refine ih corrected ((cs, ne2, nh) :: rest2) lo n hi hc ?_
              simp only [coversB, Bool.and_eq_true, decide_eq_true_eq]
              exact ⟨⟨hcs, by omega⟩, hrest2⟩
          · exact hkeep
        · exact hkeep
      · rw [if_neg h1]
        exact hkeep

theorem mergeAdjacentAux_covers :
    ∀ (rest : List Group) (ls le : Int) (lh : Str) (lo hi : Int),
      ls = lo → ls ≤ le → coversB (le + 1) hi rest = true →
      coversB lo hi (mergeAdjacentAux (ls, le, lh) rest) = true := by
  intro rest
  induction rest with
  | nil =>
    intro ls le lh lo hi hlo hle hr
    simp only [coversB, decide_eq_true_eq] at hr
    simp only [mergeAdjacentAux, coversB, Bool.and_eq_true, decide_eq_true_eq]
    exact ⟨⟨hlo, hle⟩, by omega⟩
  | cons g rest ih =>
    intro ls le lh lo hi hlo hle hr
    obtain ⟨s, e, h⟩ := g
    simp only [coversB, Bool.and_eq_true, decide_eq_true_eq] at hr
    obtain ⟨⟨hs, hse⟩, hr2⟩ := hr
    simp only [mergeAdjacentAux]
    split
    · rename_i hcond
      simp only [Bool.and_eq_true, decide_eq_true_eq] at hcond
      exact ih ls e lh lo hi hlo (by omega) hr2
    · simp only [coversB, Bool.and_eq_true, decide_eq_true_eq]
      exact ⟨⟨hlo, hle⟩, ih s e h (le + 1) hi hs hse hr2⟩

theorem mergeAdjacentGroups_covers (gs : List Group) (lo hi : Int)
    (h : coversB lo hi gs = true) : coversB lo hi (mergeAdjacentGroups gs) = true := by
  cases gs with
  | nil =>
    simpa [mergeAdjacentGroups] using h
  | cons g rest =>
    obtain ⟨s, e, hd⟩ := g
    simp only [coversB, Bool.and_eq_true, decide_eq_true_eq] at h
    simp only [mergeAdjacentGroups]
    exact mergeAdjacentAux_covers rest s e hd lo hi h.1.1 h.1.2 h.2

theorem applyContextCorrection_covers (cfg : Config) (gs : List Group) (lo hi : Int)
    (h : coversB lo hi gs = true) :
    coversB lo hi (applyContextCorrection cfg gs) = true := by
  unfold applyContextCorrection
  by_cases hlen : gs.length ≤ 1
  · rw [if_pos hlen]
    exact h
  · rw [if_neg hlen]
    apply mergeAdjacentGroups_covers
    apply contextCorrectionLoop_covers cfg gs.length [] gs lo (lo - 1) hi
    · simp [coversB]
    · simpa using h

/-- Claim C4 — **Partition invariant**: on page records with consecutive
page indices and the minimum-pages-per-group filter disabled
(`min_pages_per_split = 0`), group detection produces contiguous,
non-overlapping groups covering every input page exactly once (the
`coversB` tiling predicate), and this invariant is preserved by the
context-correction pass and by the adjacent-group merge pass. -/
theorem c4_partition_invariant :
    (∀ (cfg : Config) (p0 : Int) (h0 : Str) (rest : List (Int × Str)),
        consecutiveFromB (p0 + 1) rest = true →
        cfg.minPagesPerSplit = 0 →
        coversB p0 (p0 + (rest.length : Int))
          (detectHeaderGroups cfg ((p0, h0) :: rest)) = true) ∧
    (∀ (cfg : Config) (lo hi : Int) (gs : List Group),
        coversB lo hi gs = true →
        coversB lo hi (applyContextCorrection cfg gs) = true) ∧
    (∀ (lo hi : Int) (gs : List Group),
        coversB lo hi gs = true →
        coversB lo hi (mergeAdjacentGroups gs) = true) := by
  refine ⟨?_, fun cfg lo hi gs h => applyContextCorrection_covers cfg gs lo hi h,
    fun lo hi gs h => mergeAdjacentGroups_covers gs lo hi h⟩
  intro cfg p0 h0 rest hcons hmin
  simp only [detectHeaderGroups, hmin, lt_self_iff_false, if_false]
  apply applyContextCorrection_covers
  exact detectLoop_covers cfg cfg.headerSimilarityThreshold rest p0 h0 [h0] p0 hcons (le_refl p0)

/-- Witness for C4: three pages `0,1,2` with headers `A`, `A`, `B` under
the default config with the minimum-pages filter disabled, plus a concrete
two-group tiling fed through the correction and merge passes. -/
theorem c4_witness :
    coversB 0 2 (detectHeaderGroups
      { defaultConfig with
        minPagesPerSplit := 0 }
      [((0 : Int), "A".toList), (1, "A".toList), (2, "B".toList)]) = true ∧
    coversB 5 9 (applyContextCorrection defaultConfig
      [((5 : Int), (6 : Int), "X".toList), (7, 9, "Y".toList)]) = true ∧
    coversB 5 9 (mergeAdjacentGroups
      [((5 : Int), (6 : Int), "X".toList), (7, 9, "Y".toList)]) = true :=
  ⟨c4_partition_invariant.1 _ 0 "A".toList [(1, "A".toList), (2, "B".toList)]
      (by decide) rfl,
    c4_partition_invariant.2.1 defaultConfig 5 9 _ (by decide),
    c4_partition_invariant.2.2 5 9 _ (by decide)⟩

/-!
## C8: code-ambiguity inspection
-/

theorem mapLookup_mem (m : List (Char × Char)) (c v : Char)
    (h : mapLookup m c = some v) : (c, v) ∈ m := by
  unfold mapLookup at h
  cases hf : m.find? (fun p => p.1 = c) with
  | none =>
    rw [hf] at h
    simp at h
  | some pr =>
    rw [hf] at h
    have hv : pr.2 = v := by simpa using h
    have hc : pr.1 = c := by simpa using List.find?_some hf
    have hmem := List.mem_of_find?_eq_some hf
    rw [← hc, ← hv]
    exact hmem

/-- Every string produced by the variant builder is the input with exactly
one position substituted through the ambiguity map. -/
theorem buildVariantsAux_sub (pairs : List (Char × Char)) :
    ∀ (rest pre : Str) (seen : List Str) (alt : Str),
      alt ∈ buildVariantsAux pairs pre rest seen →
      ∃ p c cs m, pre ++ rest = p ++ c :: cs ∧ mapLookup pairs c = some m ∧
        m ≠ c ∧ alt = p ++ m :: cs := by
  intro rest
  induction rest with
  | nil =>
    intro pre seen alt h
    simp [buildVariantsAux] at h
  | cons c cs ih =>
    intro pre seen alt h
    have hrec : ∀ (seen' : List Str), alt ∈ buildVariantsAux pairs (pre ++ [c]) cs seen' →
        ∃ p c2 cs2 m2, pre ++ c :: cs = p ++ c2 :: cs2 ∧
          mapLookup pairs c2 = some m2 ∧ m2 ≠ c2 ∧ alt = p ++ m2 :: cs2 := by
      intro seen' h'
      obtain ⟨p, c2, cs2, m2, heq, hl, hne, ha⟩ := ih (pre ++ [c]) seen' alt h'
      refine ⟨p, c2, cs2, m2, ?_, hl, hne, ha⟩
      rw [← heq]
      simp
    simp only [buildVariantsAux] at h
    cases hm : mapLookup pairs c with
    | none =>
      simp only [hm] at h
      exact hrec seen h
    | some m =>
      simp only [hm] at h
      by_cases he : (pre ++ m :: cs : Str) = pre ++ c :: cs
      · rw [if_pos he] at h
        exact hrec seen h
      · rw [if_neg he] at h
        by_cases hs : (seen.contains (pre ++ m :: cs)) = true
        · rw [if_pos hs] at h
          exact hrec seen h
        · rw [if_neg hs] at h
          rcases List.mem_cons.mp h with h1 | h1
          · refine ⟨pre, c, cs, m, rfl, hm, ?_, h1⟩
            intro hmc
            exact he (by rw [hmc])
          · exact hrec (seen ++ [pre ++ m :: cs]) h1

/-- Completeness of the variant builder: any properly-mapped position
yields a variant in the output, unless it was in `seen` already. -/
theorem buildVariantsAux_hits (pairs : List (Char × Char)) :
    ∀ (p pre : Str) (seen : List Str) (c m : Char) (cs : Str),
      mapLookup pairs c = some m → m ≠ c →
      (pre ++ (p ++ m :: cs)) ∈ buildVariantsAux pairs pre (p ++ c :: cs) seen ∨
        (pre ++ (p ++ m :: cs)) ∈ seen := by
  intro p
  induction p with
  | nil =>
    intro pre seen c m cs hm hmc
    simp only [List.nil_append]
    simp only [buildVariantsAux, hm]
    rw [if_neg (by
      intro he
      have h2 : m = c := by simpa using he
      exact hmc h2)]
    by_cases hs : seen.contains (pre ++ m :: cs) = true
    · rw [if_pos hs]
      right
      simpa using hs
    · rw [if_neg hs]
      left
      exact List.mem_cons_self _ _
  | cons a p ih =>
    intro pre seen c m cs hm hmc
    simp only [List.cons_append]
    simp only [buildVariantsAux]
    cases ha : mapLookup pairs a with
    | none =>
      simp only [ha]
      have h2 := ih (pre ++ [a]) seen c m cs hm hmc
      simpa [List.append_assoc] using h2
    | some ma =>
      simp only [ha]
      by_cases he : (pre ++ ma :: (p ++ c :: cs) : Str) = pre ++ a :: (p ++ c :: cs)
      · rw [if_pos he]
        have h2 := ih (pre ++ [a]) seen c m cs hm hmc
        simpa [List.append_assoc] using h2
      · rw [if_neg he]
        by_cases hs : (seen.contains (pre ++ ma :: (p ++ c :: cs))) = true
        · rw [if_pos hs]
          have h2 := ih (pre ++ [a]) seen c m cs hm hmc
          simpa [List.append_assoc] using h2
        · rw [if_neg hs]
          have h2 := ih (pre ++ [a]) (seen ++ [pre ++ ma :: (p ++ c :: cs)]) c m cs hm hmc
          rcases h2 with h3 | h3
          · left
            refine List.mem_cons_of_mem _ ?_
            simpa [List.append_assoc] using h3
          · rcases List.mem_append.mp h3 with h4 | h4
            · right
              simpa [List.append_assoc] using h4
            · left
              have h5 : (pre ++ [a]) ++ (p ++ m :: cs) = pre ++ ma :: (p ++ c :: cs) := by
                simpa using h4
              have h6 : pre ++ a :: (p ++ m :: cs) = pre ++ ma :: (p ++ c :: cs) := by
                rw [← h5]
                simp
              rw [h6]
              exact List.mem_cons_self _ _

/-- The alternative codes of `inspect_code_ambiguity` are either exactly
the variants of the reported code segment, or empty. -/
theorem inspect_altCodes (cfg : Config) (text : Str) :
    (inspectCodeAmbiguity cfg text).alternativeCodes =
      buildSingleCharAmbiguityVariants (inspectCodeAmbiguity cfg text).codeSegment
        cfg.codeAmbiguityPairs ∨
    (inspectCodeAmbiguity cfg text).alternativeCodes = [] := by
  simp only [inspectCodeAmbiguity]
  split
  · exact Or.inr rfl
  · split
    · exact Or.inr rfl
    · split
      · exact Or.inr rfl
      · split
        · exact Or.inr rfl
        · split
          · exact Or.inr rfl
          · split
            · exact Or.inr rfl
            · split
              · exact Or.inr rfl
              · exact Or.inl rfl

/-- Claim C8 — **Ambiguity detection precision**: under the default
config, `inspect_code_ambiguity` reports `is_ambiguous` exactly when the
normalized header is non-empty, has a resolvable code segment (index 2 of
a 4-part header, index 1 of a 3-part header), that segment is non-empty,
mixes letters and digits, and contains a character of the bidirectional
ambiguity map; every listed alternative code is a single-position
substitution of the code segment; and concretely
`B-FD-020H-S18020267` is flagged with `02OH` among the alternatives while
`B-FD-ABCD-S18020267` is not flagged. -/
theorem c8_ambiguity_detection :
    (∀ (text : Str),
        (inspectCodeAmbiguity defaultConfig text).isAmbiguous = true ↔
          ((validateAndScore defaultConfig text).2.isEmpty = false ∧
            ∃ idx, resolveCodeSegmentIndex defaultConfig
                (splitSep '-' (validateAndScore defaultConfig text).2) = some idx ∧
              ((splitSep '-' (validateAndScore defaultConfig text).2).getD idx [] ≠ [] ∧
                ((splitSep '-' (validateAndScore defaultConfig text).2).getD idx []).any
                  Char.isAlpha = true ∧
                ((splitSep '-' (validateAndScore defaultConfig text).2).getD idx []).any
                  Char.isDigit = true ∧
                ∃ c ∈ (splitSep '-' (validateAndScore defaultConfig text).2).getD idx [],
                  (mapLookup defaultConfig.codeAmbiguityPairs c).isSome = true))) ∧
    (∀ (text alt : Str),
        alt ∈ (inspectCodeAmbiguity defaultConfig text).alternativeCodes →
          ∃ p c cs m,
            (inspectCodeAmbiguity defaultConfig text).codeSegment = p ++ c :: cs ∧
              mapLookup defaultConfig.codeAmbiguityPairs c = some m ∧ m ≠ c ∧
              alt = p ++ m :: cs) ∧
    (inspectCodeAmbiguity defaultConfig "B-FD-020H-S18020267".toList).isAmbiguous = true ∧
    "02OH".toList ∈
      (inspectCodeAmbiguity defaultConfig "B-FD-020H-S18020267".toList).alternativeCodes ∧
    (inspectCodeAmbiguity defaultConfig "B-FD-ABCD-S18020267".toList).isAmbiguous = false := by
  refine ⟨?_, ?_, by decide, by decide, by decide⟩
  · intro text
    have hen : (!defaultConfig.enableCodeAmbiguityMonitor) = false := rfl
    have hsep : defaultConfig.expectedSeparator = '-' := rfl
    have honly : defaultConfig.codeAmbiguityOnlyMixedAlnum = true := rfl
    have hpairs : defaultConfig.codeAmbiguityPairs.isEmpty = false := rfl
    have hp : ∀ pr ∈ defaultConfig.codeAmbiguityPairs, pr.2 ≠ pr.1 := by decide
    simp only [inspectCodeAmbiguity, hen, Bool.false_eq_true, if_false, hsep]
    by_cases hN : (validateAndScore defaultConfig text).2.isEmpty = true
    · rw [if_pos hN]
      simp [hN]
    · rw [if_neg hN]
      have hN' : (validateAndScore defaultConfig text).2.isEmpty = false := by
        simpa using hN
      cases hidx : resolveCodeSegmentIndex defaultConfig
          (splitSep '-' (validateAndScore defaultConfig text).2) with
      | none =>
        simp
      | some idx =>
        simp only [Option.some.injEq, exists_eq_left']
        by_cases hc : ((splitSep '-' (validateAndScore defaultConfig text).2).getD idx
            []).isEmpty = true
        · rw [if_pos hc]
          refine iff_of_false (by simp) ?_
          rintro ⟨-, hne, -, -, -⟩
          exact hne (List.isEmpty_iff.mp hc)
        · rw [if_neg hc]
          have hcne : (splitSep '-' (validateAndScore defaultConfig text).2).getD idx [] ≠
              [] := by
            intro h0
            rw [h0] at hc
            exact hc rfl
          by_cases hmix : (((splitSep '-' (validateAndScore defaultConfig text).2).getD idx
                []).any Char.isAlpha &&
              ((splitSep '-' (validateAndScore defaultConfig text).2).getD idx []).any
                Char.isDigit) = true
          · have hguard : (defaultConfig.codeAmbiguityOnlyMixedAlnum &&
                !(((splitSep '-' (validateAndScore defaultConfig text).2).getD idx []).any
                    Char.isAlpha &&
                  ((splitSep '-' (validateAndScore defaultConfig text).2).getD idx []).any
                    Char.isDigit)) = false := by
              rw [hmix, honly]
              decide
            rw [if_neg (fun hcond => Bool.false_ne_true (hguard ▸ hcond))]
            rw [if_neg (fun hcond => Bool.false_ne_true (hpairs ▸ hcond))]
            have hmix2 := hmix
            simp only [Bool.and_eq_true] at hmix2
            obtain ⟨hal, had⟩ := hmix2
            by_cases halt : (buildSingleCharAmbiguityVariants
                ((splitSep '-' (validateAndScore defaultConfig text).2).getD idx [])
                defaultConfig.codeAmbiguityPairs).isEmpty = true
            · rw [if_pos halt]
              refine iff_of_false (by simp) ?_
              rintro ⟨-, -, -, -, c, hcmem, hlook⟩
              obtain ⟨m, hm⟩ := Option.isSome_iff_exists.mp hlook
              have hmc : m ≠ c := hp (c, m) (mapLookup_mem _ _ _ hm)
              obtain ⟨p, cs, hsplit⟩ := List.append_of_mem hcmem
              have hnil : buildSingleCharAmbiguityVariants
                  ((splitSep '-' (validateAndScore defaultConfig text).2).getD idx [])
                  defaultConfig.codeAmbiguityPairs = [] := List.isEmpty_iff.mp halt
              have hhit := buildVariantsAux_hits defaultConfig.codeAmbiguityPairs p [] []
                c m cs hm hmc
              rw [← hsplit] at hhit
              unfold buildSingleCharAmbiguityVariants at hnil
              rcases hhit with h3 | h3
              · rw [hnil] at h3
                exact absurd h3 (List.not_mem_nil _)
              · exact absurd h3 (List.not_mem_nil _)
            · rw [if_neg halt]
              refine iff_of_true (by simp) ?_
              refine ⟨hN', hcne, hal, had, ?_⟩
              have hne2 : buildSingleCharAmbiguityVariants
                  ((splitSep '-' (validateAndScore defaultConfig text).2).getD idx [])
                  defaultConfig.codeAmbiguityPairs ≠ [] := by
                intro h0
                rw [h0] at halt
                exact halt rfl
              obtain ⟨alt, halt2⟩ := List.exists_mem_of_ne_nil _ hne2
              have halt3 : alt ∈ buildVariantsAux defaultConfig.codeAmbiguityPairs []
                  ((splitSep '-' (validateAndScore defaultConfig text).2).getD idx [])
                  [] := halt2
              obtain ⟨p, c, cs, m, heq, hl, hmc, ha⟩ :=
                buildVariantsAux_sub defaultConfig.codeAmbiguityPairs
                  ((splitSep '-' (validateAndScore defaultConfig text).2).getD idx [])
                  [] [] alt halt3
              refine ⟨c, ?_, ?_⟩
              · have heq2 : (splitSep '-' (validateAndScore defaultConfig text).2).getD idx
                    [] = p ++ c :: cs := by
                  simpa using heq
                rw [heq2]
                exact List.mem_append.mpr (Or.inr (List.mem_cons_self _ _))
              · rw [hl]
                rfl
          · have hmix2 : (((splitSep '-' (validateAndScore defaultConfig text).2).getD idx
                  []).any Char.isAlpha &&
                ((splitSep '-' (validateAndScore defaultConfig text).2).getD idx []).any
                  Char.isDigit) = false := by
              simpa using hmix
            have hguard : (defaultConfig.codeAmbiguityOnlyMixedAlnum &&
                !(((splitSep '-' (validateAndScore defaultConfig text).2).getD idx []).any
                    Char.isAlpha &&
                  ((splitSep '-' (validateAndScore defaultConfig text).2).getD idx []).any
                    Char.isDigit)) = true := by
              rw [hmix2, honly]
              decide
            rw [if_pos hguard]
            refine iff_of_false (by simp) ?_
            rintro ⟨-, -, hal, had, -⟩
            rw [hal, had] at hmix2
            simp at hmix2
  · intro text alt halt
    rcases inspect_altCodes defaultConfig text with h | h
    · rw [h] at halt
      have halt2 : alt ∈ buildVariantsAux defaultConfig.codeAmbiguityPairs []
          (inspectCodeAmbiguity defaultConfig text).codeSegment [] := halt
      obtain ⟨p, c, cs, m, heq, hl, hmc, ha⟩ :=
        buildVariantsAux_sub defaultConfig.codeAmbiguityPairs
          (inspectCodeAmbiguity defaultConfig text).codeSegment [] [] alt halt2
      exact ⟨p, c, cs, m, by simpa using heq, hl, hmc, ha⟩
    · rw [h] at halt
      exact absurd halt (List.not_mem_nil _)

/-- Witness for C8: the alternative `O20H` listed for
`B-FD-020H-S18020267` is a single-position substitution of the code
segment `020H`. -/
theorem c8_witness :
    ∃ p c cs m,
      (inspectCodeAmbiguity defaultConfig "B-FD-020H-S18020267".toList).codeSegment =
        p ++ c :: cs ∧
        mapLookup defaultConfig.codeAmbiguityPairs c = some m ∧ m ≠ c ∧
        "O20H".toList = p ++ m :: cs :=
  c8_ambiguity_detection.2.1 "B-FD-020H-S18020267".toList "O20H".toList (by decide)

/-!
## C9: support-gated resolution
-/

/-- `max(support_map.items(), key=count)` as a left fold: the result is an
element of the list and its count dominates every element. -/
theorem foldl_max_spec :
    ∀ (xs : List (Str × Nat)) (x : Str × Nat),
      (xs.foldl (fun acc (y : Str × Nat) => if acc.2 < y.2 then y else acc) x) ∈ x :: xs ∧
        ∀ y ∈ x :: xs,
          y.2 ≤ (xs.foldl (fun acc (y : Str × Nat) => if acc.2 < y.2 then y else acc) x).2 := by
  intro xs
  induction xs with
  | nil =>
    intro x
    constructor
    · exact List.mem_cons_self _ _
    · intro y hy
      rcases List.mem_cons.mp hy with h | h
      · subst h
        exact le_refl _
      · simp at h
  | cons z xs ih =>
    intro x
    simp only [List.foldl_cons]
    obtain ⟨hmem, hbound⟩ := ih (if x.2 < z.2 then z else x)
    constructor
    · rcases List.mem_cons.mp hmem with h | h
      · rw [h]
        by_cases hlt : x.2 < z.2
        · rw [if_pos hlt]
          exact List.mem_cons_of_mem _ (List.mem_cons_self _ _)
        · rw [if_neg hlt]
          exact List.mem_cons_self _ _
      · exact List.mem_cons_of_mem _ (List.mem_cons_of_mem _ h)
    · intro y hy
      rcases List.mem_cons.mp hy with h | h
      · subst h
        refine le_trans ?_ (hbound _ (List.mem_cons_self _ _))
        by_cases hlt : y.2 < z.2
        · rw [if_pos hlt]
          omega
        · rw [if_neg hlt]
      · rcases List.mem_cons.mp h with h2 | h2
        · subst h2
          refine le_trans ?_ (hbound _ (List.mem_cons_self _ _))
          by_cases hlt : x.2 < y.2
          · rw [if_pos hlt]
          · rw [if_neg hlt]
            omega
        · exact hbound _ (List.mem_cons_of_mem _ h2)

/-- Counterexample to claim C9 as stated: with `min_support = 0` and no
candidates, the base header is ambiguous, the maximal support count `0`
meets `min_support` (`0 ≤ 0`), yet nothing is applied — the code gates on
`max(1, min_support)` (the returned metadata records `minSupport = 1`),
not on `min_support` itself. -/
theorem c9_counterexample :
    (inspectCodeAmbiguity defaultConfig "B-FD-020H-S18020267".toList).isAmbiguous = true ∧
    (resolveCodeAmbiguityBySupport defaultConfig "B-FD-020H-S18020267".toList []
        0).2.supports =
      [("B-FD-O20H-S18020267".toList, 0), ("B-FD-02OH-S18020267".toList, 0)] ∧
    (resolveCodeAmbiguityBySupport defaultConfig "B-FD-020H-S18020267".toList []
        0).2.minSupport = 1 ∧
    (resolveCodeAmbiguityBySupport defaultConfig "B-FD-020H-S18020267".toList []
        0).2.applied = false ∧
    (resolveCodeAmbiguityBySupport defaultConfig "B-FD-020H-S18020267".toList [] 0).1 =
      "B-FD-020H-S18020267".toList := by
  refine ⟨by decide, by decide, by decide, by decide, by decide⟩

/-- Claim C9 (amended) — **Support-gated resolution**: the resolver
applies an alternative exactly when some (equivalently, the maximal)
support count reaches `max(1, min_support)`; when it applies one, the
returned header carries a maximal support count that meets the clamped
minimum; when it does not, the base header is returned unchanged; and the
two concrete calls of the claim behave as stated. -/
theorem c9_support_gate :
    (∀ (cfg : Config) (base : Str) (cands : List Str) (ms : Int),
        (resolveCodeAmbiguityBySupport cfg base cands ms).2.applied = false →
        (resolveCodeAmbiguityBySupport cfg base cands ms).1 = base) ∧
    (∀ (cfg : Config) (base : Str) (cands : List Str) (ms : Int),
        (resolveCodeAmbiguityBySupport cfg base cands ms).2.applied = true →
        ∃ cnt, ((resolveCodeAmbiguityBySupport cfg base cands ms).1, cnt) ∈
            (resolveCodeAmbiguityBySupport cfg base cands ms).2.supports ∧
          (∀ pc ∈ (resolveCodeAmbiguityBySupport cfg base cands ms).2.supports,
            pc.2 ≤ cnt) ∧
          (max 1 ms).toNat ≤ cnt) ∧
    (∀ (cfg : Config) (base : Str) (cands : List Str) (ms : Int),
        (∃ pc ∈ (resolveCodeAmbiguityBySupport cfg base cands ms).2.supports,
          (max 1 ms).toNat ≤ pc.2) →
        (resolveCodeAmbiguityBySupport cfg base cands ms).2.applied = true) ∧
    (resolveCodeAmbiguityBySupport defaultConfig "B-FD-020H-S18020267".toList
        ["B-FD-020H-S18020267".toList, "B-FD-02OH-S18020267".toList,
          "B-FD-02OH-S18020267".toList] 1).1 = "B-FD-02OH-S18020267".toList ∧
    (resolveCodeAmbiguityBySupport defaultConfig "B-FD-020H-S18020267".toList
        ["B-FD-020H-S18020267".toList, "B-FD-02OH-S18020267".toList,
          "B-FD-02OH-S18020267".toList] 1).2.applied = true ∧
    (resolveCodeAmbiguityBySupport defaultConfig "B-FD-020H-S18020267".toList
        ["B-FD-020H-S18020267".toList, "B-FD-02OH-S18020267".toList] 2).1 =
      "B-FD-020H-S18020267".toList ∧
    (resolveCodeAmbiguityBySupport defaultConfig "B-FD-020H-S18020267".toList
        ["B-FD-020H-S18020267".toList, "B-FD-02OH-S18020267".toList] 2).2.applied =
      false := by
  refine ⟨?_, ?_, ?_, by decide, by decide, by decide, by decide⟩
  · intro cfg base cands ms h
    simp only [resolveCodeAmbiguityBySupport] at h ⊢
    split at h
    · rename_i hcond
      rw [if_pos hcond]
    · rename_i hcond
      rw [if_neg hcond]
      split at h
      · rename_i hcond2
        rw [if_pos hcond2]
      · rename_i hcond2
        rw [if_neg hcond2]
        split at h
        · simp at h
        · rename_i hcond3
          rw [if_neg hcond3]
  · intro cfg base cands ms h
    simp only [resolveCodeAmbiguityBySupport] at h ⊢
    split at h
    · simp at h
    · rename_i hcond
      rw [if_neg hcond]
      split at h
      · simp at h
      · rename_i hcond2
        rw [if_neg hcond2]
        split at h
        · rename_i hcond3
          rw [if_pos hcond3]
          cases halts : (inspectCodeAmbiguity cfg base).alternativeHeaders.filter
              (fun x => !x.isEmpty) with
          | nil =>
            rw [halts] at hcond2
            exact absurd rfl hcond2
          | cons a as =>
            rw [halts] at hcond3
            simp only [List.map_cons] at hcond3 ⊢
            exact ⟨_, (foldl_max_spec _ _).1, (foldl_max_spec _ _).2, hcond3⟩
        · simp at h
  · intro cfg base cands ms h
    simp only [resolveCodeAmbiguityBySupport] at h ⊢
    split at h
    · simp at h
    · rename_i hcond
      rw [if_neg hcond]
      split at h
      · simp at h
      · rename_i hcond2
        rw [if_neg hcond2]
        split at h
        · rename_i hcond3
          rw [if_pos hcond3]
        · rename_i hcond3
          exfalso
          obtain ⟨pc, hpc, hreq⟩ := h
          cases halts : (inspectCodeAmbiguity cfg base).alternativeHeaders.filter
              (fun x => !x.isEmpty) with
          | nil =>
            rw [halts] at hcond2
            exact hcond2 rfl
          | cons a as =>
            rw [halts] at hpc hcond3
            simp only [List.map_cons] at hpc hcond3
            exact hcond3 (le_trans hreq ((foldl_max_spec _ _).2 pc hpc))

/-- Witness for C9: the first concrete call of the claim, derived through
the general sufficiency direction of the amended gate. -/
theorem c9_witness :
    (resolveCodeAmbiguityBySupport defaultConfig "B-FD-020H-S18020267".toList
        ["B-FD-020H-S18020267".toList, "B-FD-02OH-S18020267".toList,
          "B-FD-02OH-S18020267".toList] 1).2.applied = true :=
  c9_support_gate.2.2.1 defaultConfig "B-FD-020H-S18020267".toList
    ["B-FD-020H-S18020267".toList, "B-FD-02OH-S18020267".toList,
      "B-FD-02OH-S18020267".toList] 1
    ⟨("B-FD-02OH-S18020267".toList, 2), by decide, by decide⟩

end OcrTesting
